import Mathlib

/-!
Verification development for the `video_scribe` subtitle-correction engine.

The definitions below are a shallow embedding of the Python sources:
  - `src/video_scribe/data.py`      (segment/transcript model, SRT round trip)
  - `src/video_scribe/utils.py`     (`count_words`)
  - `src/video_scribe/alignment.py` (`SubtitleAligner`)
  - `src/video_scribe/optimize.py`  (`SubtitleOptimizer`)
together with the parts of CPython's `difflib` (stdlib, v3.11) that
`alignment.py` and `optimize.py` call (`SequenceMatcher`, `ndiff`).

Machine text is modelled as Lean `String` / `List Char`; Python integers as
`Int`/`Nat`; Python floats (similarity ratios) as exact rationals `Rat`
(the ratios are quotients of small naturals, far from any rounding boundary
of the float thresholds 0.3 / 0.7 / 0.74 / 0.75); Python dicts with string
keys as ordered association lists (`Batch`), which is faithful because
CPython dicts preserve insertion order.  Fallible code returns `Except`.
External effects (the LLM call, the filesystem) are explicit parameters or
effect traces.
-/

/-! ## Python string primitives -/

/-- Whitespace test used to model Python's `str.strip`, `str.split()`,
`str.isspace` and the regex class `\s`.  Covers the ASCII whitespace plus the
Latin-1 members of Python's whitespace set; the claims only exercise ASCII
text, where this model agrees exactly with CPython. -/
def pyIsSpace (c : Char) : Bool :=
  c = ' ' || c = '\t' || c = '\n' || c = '\r' || c = '\x0b' || c = '\x0c' ||
  c = '\x1c' || c = '\x1d' || c = '\x1e' || c = '\x1f' || c = '\x85' || c = '\xa0'

/-- Python `str.strip()` on a character list. -/
def pyStripChars (cs : List Char) : List Char :=
  ((cs.dropWhile pyIsSpace).reverse.dropWhile pyIsSpace).reverse

/-- Python `str.strip()`. -/
def pyStrip (s : String) : String := String.mk (pyStripChars s.data)

/-- Python `str.rstrip()` (used by difflib's `_qformat`). -/
def pyRStrip (s : String) : String :=
  String.mk (s.data.reverse.dropWhile pyIsSpace).reverse

theorem length_dropWhile_le (p : Char → Bool) (l : List Char) :
    (l.dropWhile p).length ≤ l.length :=
  (List.dropWhile_sublist p).length_le

/-- Worker for `pySplitWs`; structural on fuel (each step consumes at least
one character, so `cs.length` fuel never runs out). -/
def pySplitWsGo : Nat → List Char → List (List Char)
  | 0, _ => []
  | _ + 1, [] => []
  | fuel + 1, c :: rest =>
    if pyIsSpace c then pySplitWsGo fuel rest
    else (c :: rest.takeWhile (fun d => !pyIsSpace d)) ::
      pySplitWsGo fuel (rest.dropWhile (fun d => !pyIsSpace d))

/-- Python `str.split()` with no separator: split on runs of whitespace,
discarding empty pieces (leading/trailing whitespace produces none). -/
def pySplitWs (cs : List Char) : List (List Char) := pySplitWsGo cs.length cs

/-- Worker for `collapseWs`; structural on fuel (each step consumes at least
one character, so `cs.length` fuel never runs out). -/
def collapseWsGo : Nat → List Char → List Char
  | 0, _ => []
  | _ + 1, [] => []
  | fuel + 1, c :: rest =>
    if pyIsSpace c then ' ' :: collapseWsGo fuel (rest.dropWhile pyIsSpace)
    else c :: collapseWsGo fuel rest

/-- Model of `re.sub(r"\s+", " ", text)`: every maximal whitespace run is
replaced by a single space. -/
def collapseWs (cs : List Char) : List Char := collapseWsGo cs.length cs

/-- The text normalisation of `_validate_optimization_result`:
`re.sub(r"\s+", " ", text).strip()`. -/
def cleanForCompare (s : String) : String :=
  pyStrip (String.mk (collapseWs s.data))

/-! ## utils.py: `count_words` -/

/-- Membership in the `_NO_SPACE_LANGUAGES` character class of
`video_scribe/utils.py` (CJK, kana, Hangul, Thai/Lao, Myanmar, Khmer, Indic). -/
def isNoSpaceChar (c : Char) : Bool :=
  (0x4e00 ≤ c.val && c.val ≤ 0x9fff) ||
  (0x3040 ≤ c.val && c.val ≤ 0x309f) ||
  (0x30a0 ≤ c.val && c.val ≤ 0x30ff) ||
  (0xac00 ≤ c.val && c.val ≤ 0xd7af) ||
  (0x0e00 ≤ c.val && c.val ≤ 0x0eff) ||
  (0x1000 ≤ c.val && c.val ≤ 0x109f) ||
  (0x1780 ≤ c.val && c.val ≤ 0x17ff) ||
  (0x0900 ≤ c.val && c.val ≤ 0x0dff)

/-- `utils.count_words`: count of no-space-language characters plus the count
of whitespace-separated words after replacing each no-space character with a
space. -/
def count_words (text : String) : Nat :=
  if text = "" then 0
  else
    let charCount := (text.data.filter isNoSpaceChar).length
    let wordText := text.data.map (fun c => if isNoSpaceChar c then ' ' else c)
    charCount + (pySplitWs wordText).length

/-! ## Ordered string dictionaries (CPython dicts with `str` keys) -/

/-- A Python `Dict[str, str]` as an insertion-ordered association list. -/
abbrev Batch := List (String × String)

/-- Key list of a dict, in insertion order. -/
def dictKeys (d : Batch) : List String := d.map Prod.fst

/-- Value list of a dict, in insertion order (`dict.values()`). -/
def dictValues (d : Batch) : List String := d.map Prod.snd

/-- Dictionary lookup `d[k]` / `d.get(k)`. -/
def dictGet (d : Batch) (k : String) : Option String :=
  (d.find? (fun p => p.1 == k)).map Prod.snd

/-- Dictionary assignment `d[k] = v`: replaces in place when the key exists
(keys are unique in a real dict, so replacing every occurrence is the same as
replacing the first), otherwise appends. -/
def dictSet (d : Batch) (k v : String) : Batch :=
  if d.any (fun p => p.1 == k) then d.map (fun p => if p.1 == k then (k, v) else p)
  else d ++ [(k, v)]

/-- Python `d.update(e)`. -/
def dictUpdate (d e : Batch) : Batch :=
  e.foldl (fun acc p => dictSet acc p.1 p.2) d

/-- Python set equality of two key collections (`set(a) == set(b)`). -/
def sameKeySet (a b : List String) : Bool :=
  a.all (fun k => b.contains k) && b.all (fun k => a.contains k)

/-! ## data.py: segment and transcript model -/

/-- `ASRDataSeg` from `video_scribe/data.py`. -/
structure ASRDataSeg where
  text : String
  translated_text : String := ""
  start_time : Int
  end_time : Int
deriving DecidableEq

/-- Python's `f"{n:0w}"` zero padding of an integer (zeros inserted after the
sign). -/
def padZero (w : Nat) (n : Int) : String :=
  let s := toString n
  if w ≤ s.length then s
  else if n < 0 then "-" ++ String.mk (List.replicate (w - s.length) '0') ++ toString (-n)
  else String.mk (List.replicate (w - s.length) '0') ++ s

/-- `ASRDataSeg._ms_to_srt_time`: repeated `divmod` (floor division, which for
the positive divisors used here coincides with Euclidean division on `Int`)
and zero-padded formatting. -/
def msToSrtTime (ms : Int) : String :=
  let totalSeconds := ms.ediv 1000
  let milliseconds := ms.emod 1000
  let minutesAll := totalSeconds.ediv 60
  let seconds := totalSeconds.emod 60
  let hours := minutesAll.ediv 60
  let minutes := minutesAll.emod 60
  padZero 2 hours ++ ":" ++ padZero 2 minutes ++ ":" ++ padZero 2 seconds ++ "," ++
    padZero 3 milliseconds

/-- `ASRDataSeg.to_srt_ts`. -/
def ASRDataSeg.to_srt_ts (seg : ASRDataSeg) : String :=
  msToSrtTime seg.start_time ++ " --> " ++ msToSrtTime seg.end_time

/-- `ASRData` from `video_scribe/data.py`: the held segment list. -/
structure ASRData where
  segments : List ASRDataSeg
deriving DecidableEq

/-- `ASRData.__init__`: keep only segments whose text is truthy and strips to
something truthy, then sort ascending by `start_time`.  CPython `list.sort` is
a stable sort by key; `List.insertionSort` with the non-strict key order is
stable in the same sense, hence extensionally identical. -/
def ASRData.make (segments : List ASRDataSeg) : ASRData :=
  ⟨(segments.filter (fun seg => seg.text != "" && pyStrip seg.text != "")).insertionSort
    (fun a b => a.start_time ≤ b.start_time)⟩

/-- `ASRData.to_txt` (return value; the optional file write is modelled in
`ASRData.save`). -/
def ASRData.to_txt (a : ASRData) : String :=
  String.intercalate "\n" (a.segments.map (fun seg => seg.text))

/-- `ASRData.to_srt` (return value; the optional file write is modelled in
`ASRData.save`). -/
def ASRData.to_srt (a : ASRData) : String :=
  String.intercalate "\n" (a.segments.enum.map
    (fun p => toString (p.1 + 1) ++ "\n" ++ p.2.to_srt_ts ++ "\n" ++ p.2.text ++ "\n"))

/-- `ASRData.to_json`: the structured record, keyed by 1-based string index;
each entry carries `(start_time, end_time, text)`. -/
def ASRData.to_json (a : ASRData) : List (String × Int × Int × String) :=
  a.segments.enum.map (fun p => (toString (p.1 + 1), p.2.start_time, p.2.end_time, p.2.text))

/-! ### Parsing the timestamped block format (`ASRData.from_srt`) -/

/-- Line-boundary characters of Python `str.splitlines` (the BMP set; the
astral cases cannot occur in the texts of the claims). -/
def pyIsLineBreak (c : Char) : Bool :=
  c = '\n' || c = '\r' || c = '\x0b' || c = '\x0c' ||
  c = '\x1c' || c = '\x1d' || c = '\x1e' || c = '\x85' ||
  c.val = 0x2028 || c.val = 0x2029

/-- Worker for `pySplitlines`; `acc` is the current line, reversed.  A
`"\r\n"` pair is one boundary (the following `'\n'` is skipped); any other
line-boundary character is a boundary by itself. -/
def pySplitlinesGo : List Char → List Char → List (List Char)
  | [], acc => [acc.reverse]
  | c :: rest, acc =>
    if c = '\r' && rest.head? == some '\n' then
      acc.reverse ::
        (match rest with
         | _ :: rest2 => if rest2.isEmpty then [] else pySplitlinesGo rest2 []
         | [] => [])
    else if pyIsLineBreak c then
      acc.reverse :: (if rest.isEmpty then [] else pySplitlinesGo rest [])
    else pySplitlinesGo rest (c :: acc)

/-- Python `str.splitlines()`: split at line boundaries (`\r\n` counting as
one boundary); a trailing boundary does not produce a final empty line, and
the empty string has no lines. -/
def pySplitlines (cs : List Char) : List (List Char) :=
  match cs with
  | [] => []
  | _ => pySplitlinesGo cs []

/-- Index of the last occurrence of a character, if any. -/
def lastIdxOf (c : Char) (cs : List Char) : Option Nat :=
  match cs.reverse.findIdx? (fun d => d == c) with
  | some j => some (cs.length - 1 - j)
  | none => none

/-- Worker for `splitOnBlankLines`; structural on fuel (each step consumes at
least one character, so `cs.length` fuel never runs out).  A leftmost match of
the separator pattern starts at a `'\n'`; by greedy matching with
backtracking, `\s*` extends to just before the last `'\n'` of the maximal
whitespace run that follows, provided that run contains at least one more
`'\n'`.  `acc` is the current piece, reversed. -/
def splitOnBlankLinesGo : Nat → List Char → List Char → List (List Char)
  | 0, _, acc => [acc.reverse]
  | _ + 1, [], acc => [acc.reverse]
  | fuel + 1, c :: rest, acc =>
    if c = '\n' then
      match lastIdxOf '\n' (rest.takeWhile pyIsSpace) with
      | some k => acc.reverse :: splitOnBlankLinesGo fuel (rest.drop (k + 1)) []
      | none => splitOnBlankLinesGo fuel rest (c :: acc)
    else splitOnBlankLinesGo fuel rest (c :: acc)

/-- Model of `re.split(r"\n\s*\n", s)`. -/
def splitOnBlankLines (cs : List Char) : List (List Char) :=
  splitOnBlankLinesGo cs.length cs []

/-- Numeric value of a digit character. -/
def digitVal (c : Char) : Nat := c.toNat - 48

/-- Parse exactly two digit characters (regex `\d{2}`), returning the value
and the rest. -/
def parseTwoDigits : List Char → Option (Nat × List Char)
  | a :: b :: rest =>
    if a.isDigit && b.isDigit then some (10 * digitVal a + digitVal b, rest) else none
  | _ => none

/-- Parse exactly three digit characters (regex `\d{3}`). -/
def parseThreeDigits : List Char → Option (Nat × List Char)
  | a :: b :: c :: rest =>
    if a.isDigit && b.isDigit && c.isDigit then
      some (100 * digitVal a + 10 * digitVal b + digitVal c, rest)
    else none
  | _ => none

/-- Regex `\d{1,2}` followed by the continuation `k`: greedy, with
backtracking — try two digits first, and on overall failure of the
continuation retry with one digit. -/
def parseOneOrTwoDigits {α : Type} (cs : List Char) (k : Nat → List Char → Option α) :
    Option α :=
  (match cs with
   | a :: b :: rest =>
     if a.isDigit && b.isDigit then k (10 * digitVal a + digitVal b) rest else none
   | _ => none) <|>
  (match cs with
   | a :: rest => if a.isDigit then k (digitVal a) rest else none
   | _ => none)

/-- Parse one half of the timestamp pattern,
`(\d{2}):(\d{2}):(\d{1,2})[.,](\d{3})`, handing the four captured values to
the continuation combined as the code combines them:
`h*3600000 + m*60000 + s*1000 + ms`. -/
def parseSrtHalf {α : Type} (cs : List Char) (k : Int → List Char → Option α) : Option α := do
  let (hh, r1) ← parseTwoDigits cs
  match r1 with
  | ':' :: r2 =>
    let (mm, r3) ← parseTwoDigits r2
    match r3 with
    | ':' :: r4 =>
      parseOneOrTwoDigits r4 (fun ss r5 =>
        match r5 with
        | sep :: r6 =>
          if sep = '.' || sep = ',' then do
            let (ms, r7) ← parseThreeDigits r6
            k (Int.ofNat (hh * 3600000 + mm * 60000 + ss * 1000 + ms)) r7
          else none
        | [] => none)
    | _ => none
  | _ => none

/-- `re.match` of the pattern
`(\d{2}):(\d{2}):(\d{1,2})[.,](\d{3})\s-->\s(\d{2}):(\d{2}):(\d{1,2})[.,](\d{3})`
at the start of a line (trailing characters allowed), yielding the start and
end times in milliseconds. -/
def parseSrtTimeLine (cs : List Char) : Option (Int × Int) :=
  parseSrtHalf cs (fun startTime r1 =>
    match r1 with
    | w1 :: '-' :: '-' :: '>' :: w2 :: r2 =>
      if pyIsSpace w1 && pyIsSpace w2 then
        parseSrtHalf r2 (fun endTime _ => some (startTime, endTime))
      else none
    | _ => none)

/-- One iteration of the block loop of `ASRData.from_srt`: split the block
into lines, skip it when it has fewer than 3 lines or its second line does
not match the timestamp pattern, otherwise join the remaining lines with a
space into the segment text. -/
def parseSrtBlock (blockChars : List Char) : Option ASRDataSeg :=
  let lines := pySplitlines blockChars
  if lines.length < 3 then none
  else
    match lines with
    | _ :: timeLine :: textLines =>
      match parseSrtTimeLine timeLine with
      | none => none
      | some (startTime, endTime) =>
        some { text := String.intercalate " " (textLines.map String.mk)
               start_time := startTime
               end_time := endTime }
    | _ => none

/-- `ASRData.from_srt`. -/
def ASRData.from_srt (srtStr : String) : ASRData :=
  ASRData.make ((splitOnBlankLines (pyStrip srtStr).data).filterMap parseSrtBlock)

/-! ### `ASRData.save` as an effect trace -/

/-- Filesystem effects performed by `ASRData.save`, in order. -/
inductive SaveEffect where
  | mkdirParents (ofPath : String)
  | writeText (path : String) (content : String)
  | writeJson (path : String) (entries : List (String × Int × Int × String))
deriving DecidableEq

/-- Python `str.endswith` (suffix test on the character sequence). -/
def pyEndsWith (s suffixStr : String) : Bool := suffixStr.data.isSuffixOf s.data

/-- `ASRData.save`: create the parent directory first, then dispatch on the
extension, raising `ValueError` for unrecognised extensions.
(`handle_long_path` is the identity off Windows and is omitted.) -/
def ASRData.save (a : ASRData) (savePath : String) : List SaveEffect × Except String Unit :=
  if pyEndsWith savePath ".srt" then
    ([.mkdirParents savePath, .writeText savePath a.to_srt], .ok ())
  else if pyEndsWith savePath ".txt" then
    ([.mkdirParents savePath, .writeText savePath a.to_txt], .ok ())
  else if pyEndsWith savePath ".json" then
    ([.mkdirParents savePath, .writeJson savePath a.to_json], .ok ())
  else
    ([.mkdirParents savePath], .error ("Unsupported format: " ++ savePath))

/-! ## CPython difflib: `SequenceMatcher`

Embedding of `difflib.SequenceMatcher` (CPython 3.11), generic in the element
type.  Junk handling follows `__chain_b`: a junk element is one accepted by
the `isjunk` argument; a popular element is a non-junk element of `b`
occurring more than `len(b)//100 + 1` times when `len(b) >= 200` (autojunk is
`True` in every use reached from the repository).  Both are excluded from the
`b2j` index; only the junk set feeds the extension phases of
`find_longest_match`. -/

section SequenceMatcher

variable {α : Type} [DecidableEq α]

/-- Number of occurrences of `x` in `b`. -/
def countOcc (b : List α) (x : α) : Nat := (b.filter (fun y => y = x)).length

/-- Ascending list of indices of `x` in `b` (the `b2j` entry before junk
purging). -/
def b2jIndices (b : List α) (x : α) : List Nat :=
  (b.enum.filterMap (fun p => if p.2 = x then some p.1 else none))

/-- Popular-element test of autojunk. -/
def smPopular (isjunk : α → Bool) (b : List α) (x : α) : Bool :=
  decide (200 ≤ b.length) && decide (b.length / 100 + 1 < countOcc b x) && !isjunk x

/-- `b2j.get(x, [])` after junk and popular purging. -/
def smB2jGet (isjunk : α → Bool) (b : List α) (x : α) : List Nat :=
  if isjunk x || smPopular isjunk b x then [] else b2jIndices b x

/-- Lookup in the `j2len` map, defaulting to 0 (`j2len.get(j-1, 0)`); the
argument is `j-1` offset by one so that `0` stands for Python's `-1`, never a
key. -/
def j2lenGet (m : List (Nat × Nat)) (j : Nat) : Nat :=
  match j with
  | 0 => 0
  | jj + 1 => (((m.find? (fun p => p.1 == jj)).map Prod.snd).getD 0)

/-- Inner loop of `find_longest_match` over the `b2j` entry of `a[i]`:
`continue` below `blo`, `break` at `bhi` (the entry is ascending), build the
new `j2len`, and improve the best block on strict improvement only. -/
def flmScanRow (i blo bhi : Nat) (js : List Nat) (j2len : List (Nat × Nat))
    (best : Nat × Nat × Nat) : List (Nat × Nat) × (Nat × Nat × Nat) :=
  ((js.takeWhile (fun j => j < bhi)).filter (fun j => blo ≤ j)).foldl
    (fun (st : List (Nat × Nat) × (Nat × Nat × Nat)) j =>
      let (newj2len, (besti, bestj, bestsize)) := st
      let k := j2lenGet j2len j + 1
      let newj2len := (j, k) :: newj2len
      if bestsize < k then (newj2len, (i + 1 - k, j + 1 - k, k))
      else (newj2len, (besti, bestj, bestsize)))
    ([], best)

/-- The dynamic-programming phase of `find_longest_match`. -/
def flmScan (isjunk : α → Bool) (a b : List α) (alo ahi blo bhi : Nat) :
    Nat × Nat × Nat :=
  ((List.range' alo (ahi - alo)).foldl
    (fun (st : List (Nat × Nat) × (Nat × Nat × Nat)) i =>
      let js := match a.get? i with
        | some x => smB2jGet isjunk b x
        | none => []
      flmScanRow i blo bhi js st.1 st.2)
    ([], (alo, blo, 0))).2

/-- Backward extension loop of `find_longest_match`: extend while the
preceding elements match and the junk status of the `b` element equals
`wantJunk`.  Structural on fuel; the loop decrements `besti` while it stays
above `alo`, so `besti` fuel never runs out. -/
def smExtendLo (a b : List α) (isjunk : α → Bool) (wantJunk : Bool) (alo blo : Nat) :
    Nat → Nat × Nat × Nat → Nat × Nat × Nat
  | 0, st => st
  | fuel + 1, (besti, bestj, bestsize) =>
    if alo < besti ∧ blo < bestj then
      match a.get? (besti - 1), b.get? (bestj - 1) with
      | some x, some y =>
        if isjunk y = wantJunk ∧ x = y then
          smExtendLo a b isjunk wantJunk alo blo fuel (besti - 1, bestj - 1, bestsize + 1)
        else (besti, bestj, bestsize)
      | _, _ => (besti, bestj, bestsize)
    else (besti, bestj, bestsize)

/-- Forward extension loop of `find_longest_match`.  Structural on fuel; the
loop increments `bestsize` while `besti + bestsize` stays below `ahi`, so
`ahi` fuel never runs out. -/
def smExtendHi (a b : List α) (isjunk : α → Bool) (wantJunk : Bool) (ahi bhi : Nat)
    (besti bestj : Nat) : Nat → Nat → Nat
  | 0, bestsize => bestsize
  | fuel + 1, bestsize =>
    if besti + bestsize < ahi ∧ bestj + bestsize < bhi then
      match a.get? (besti + bestsize), b.get? (bestj + bestsize) with
      | some x, some y =>
        if isjunk y = wantJunk ∧ x = y then
          smExtendHi a b isjunk wantJunk ahi bhi besti bestj fuel (bestsize + 1)
        else bestsize
      | _, _ => bestsize
    else bestsize

/-- `SequenceMatcher.find_longest_match` on `a[alo:ahi]` and `b[blo:bhi]`. -/
def findLongestMatch (isjunk : α → Bool) (a b : List α) (alo ahi blo bhi : Nat) :
    Nat × Nat × Nat :=
  let best := flmScan isjunk a b alo ahi blo bhi
  let best := smExtendLo a b isjunk false alo blo best.1 best
  let size := smExtendHi a b isjunk false ahi bhi best.1 best.2.1 ahi best.2.2
  let best := smExtendLo a b isjunk true alo blo best.1 (best.1, best.2.1, size)
  let size := smExtendHi a b isjunk true ahi bhi best.1 best.2.1 ahi best.2.2
  (best.1, best.2.1, size)

/-- Lexicographic order on block triples (Python tuple comparison, used by
`matching_blocks.sort()`). -/
def blockLe (x y : Nat × Nat × Nat) : Prop :=
  x.1 < y.1 ∨ (x.1 = y.1 ∧ (x.2.1 < y.2.1 ∨ (x.2.1 = y.2.1 ∧ x.2.2 ≤ y.2.2)))

instance : DecidableRel blockLe := fun x y => by
  unfold blockLe; infer_instance

/-- Queue loop of `get_matching_blocks` (LIFO, like `list.pop()`), gathering
the raw matching blocks; fuel-based — `smMatchingBlocks` supplies fuel
sufficient for any input. -/
def smBlocksQueue (isjunk : α → Bool) (a b : List α) :
    Nat → List (Nat × Nat × Nat × Nat) → List (Nat × Nat × Nat) → List (Nat × Nat × Nat)
  | 0, _, acc => acc
  | _ + 1, [], acc => acc
  | fuel + 1, (alo, ahi, blo, bhi) :: queueRest, acc =>
    let (i, j, k) := findLongestMatch isjunk a b alo ahi blo bhi
    if k ≠ 0 then
      let lower := if alo < i ∧ blo < j then [(alo, i, blo, j)] else []
      let upper := if i + k < ahi ∧ j + k < bhi then [(i + k, ahi, j + k, bhi)] else []
      smBlocksQueue isjunk a b fuel (upper ++ lower ++ queueRest) ((i, j, k) :: acc)
    else smBlocksQueue isjunk a b fuel queueRest acc

/-- Adjacent-block collapsing pass of `get_matching_blocks`. -/
def collapseAdjacent (blocks : List (Nat × Nat × Nat)) : List (Nat × Nat × Nat) :=
  let st := blocks.foldl
    (fun (st : List (Nat × Nat × Nat) × (Nat × Nat × Nat)) blk =>
      let (acc, (i1, j1, k1)) := st
      let (i2, j2, k2) := blk
      if i1 + k1 = i2 ∧ j1 + k1 = j2 then (acc, (i1, j1, k1 + k2))
      else (if k1 ≠ 0 then acc ++ [(i1, j1, k1)] else acc, (i2, j2, k2)))
    ([], (0, 0, 0))
  if st.2.2.2 ≠ 0 then st.1 ++ [st.2] else st.1

/-- `SequenceMatcher.get_matching_blocks`: raw blocks from the queue loop,
sorted lexicographically, adjacent blocks collapsed, and the terminating
sentinel `(len(a), len(b), 0)` appended. -/
def smMatchingBlocks (isjunk : α → Bool) (a b : List α) : List (Nat × Nat × Nat) :=
  let raw := smBlocksQueue isjunk a b (2 * (a.length + b.length) + 8)
    [(0, a.length, 0, b.length)] []
  collapseAdjacent (raw.insertionSort blockLe) ++ [(a.length, b.length, 0)]

/-- Opcode tags of `get_opcodes`. -/
inductive OpTag where
  | replace | delete | insert | equal
deriving DecidableEq

/-- `SequenceMatcher.get_opcodes`. -/
def smOpcodes (isjunk : α → Bool) (a b : List α) : List (OpTag × Nat × Nat × Nat × Nat) :=
  (((smMatchingBlocks isjunk a b).foldl
    (fun (st : (Nat × Nat) × List (OpTag × Nat × Nat × Nat × Nat)) blk =>
      let ((i, j), answer) := st
      let (ai, bj, size) := blk
      let answer :=
        if i < ai ∧ j < bj then answer ++ [(.replace, i, ai, j, bj)]
        else if i < ai then answer ++ [(.delete, i, ai, j, bj)]
        else if j < bj then answer ++ [(.insert, i, ai, j, bj)]
        else answer
      let i := ai + size
      let j := bj + size
      let answer := if size ≠ 0 then answer ++ [(.equal, ai, i, bj, j)] else answer
      ((i, j), answer))
    ((0, 0), []))).2

/-- Total match count `M` over the matching blocks. -/
def smMatchCount (isjunk : α → Bool) (a b : List α) : Nat :=
  (smMatchingBlocks isjunk a b).foldl (fun acc blk => acc + blk.2.2) 0

/-- `_calculate_ratio`. -/
def calculateRatio (matchCount totalLength : Nat) : Rat :=
  if totalLength ≠ 0 then (2 * matchCount : Rat) / (totalLength : Rat) else 1

/-- `SequenceMatcher.ratio()`: `2*M/T` over the matching blocks. -/
def smRatio (isjunk : α → Bool) (a b : List α) : Rat :=
  calculateRatio (smMatchCount isjunk a b) (a.length + b.length)

end SequenceMatcher

/-- Exact comparison of two nonnegative fractions with positive denominators
(`a.1/a.2 < b.1/b.2` by cross multiplication).  The similarity ratios of the
source are CPython floats; for the tiny integer fractions arising here the
float comparisons agree with the exact ones, so the embedding compares
exactly. -/
def fracLt (a b : Nat × Nat) : Bool := a.1 * b.2 < b.1 * a.2

/-- Exact form of `ratio < p/q` for a ratio `2*M/T` (with the `T = 0` ratio
defined as 1, following `_calculate_ratio`). -/
def ratioLtFrac (m T p q : Nat) : Bool :=
  if T ≠ 0 then fracLt (2 * m, T) (p, q) else fracLt (1, 1) (p, q)

/-- `IS_CHARACTER_JUNK`: blank or tab. -/
def isCharacterJunk (c : Char) : Bool := c = ' ' || c = '\t'

/-- The junk argument `None`. -/
def noJunk {α : Type} : α → Bool := fun _ => false

/-- Character-level `SequenceMatcher(None, a, b).ratio()` on two strings, as
used by `_validate_optimization_result`. -/
def charRatio (a b : String) : Rat := smRatio noJunk a.data b.data

/-! ## CPython difflib: `Differ` and `ndiff`

`ndiff(a, b)` is `Differ(linejunk=None, charjunk=IS_CHARACTER_JUNK).compare(a, b)`.
The generator is modelled as the list of emitted lines. -/

/-- `Differ._dump`: tag every line of `x[lo:hi]`. -/
def differDump (tag : Char) (x : List String) (lo hi : Nat) : List String :=
  (List.range' lo (hi - lo)).map
    (fun i => String.mk (tag :: ' ' :: (x.getD i "").data))

/-- `Differ._plain_replace`: the shorter block first. -/
def plainReplace (a : List String) (alo ahi : Nat) (b : List String) (blo bhi : Nat) :
    List String :=
  if bhi - blo < ahi - alo then
    differDump '+' b blo bhi ++ differDump '-' a alo ahi
  else
    differDump '-' a alo ahi ++ differDump '+' b blo bhi

/-- `_keep_original_ws`: over the zip of the line and its tag string, keep the
original character where the tag is a blank against whitespace. -/
def keepOriginalWs (s tags : String) : String :=
  String.mk ((s.data.zip tags.data).map
    (fun p => if p.2 = ' ' && pyIsSpace p.1 then p.1 else p.2))

/-- Intraline tag strings of `_fancy_replace`, built from the character-level
opcodes of the synch pair. -/
def buildIntralineTags (ops : List (OpTag × Nat × Nat × Nat × Nat)) : String × String :=
  ops.foldl
    (fun (st : String × String) op =>
      let (atags, btags) := st
      let (tag, ai1, ai2, bj1, bj2) := op
      let la := ai2 - ai1
      let lb := bj2 - bj1
      match tag with
      | .replace => (atags ++ String.mk (List.replicate la '^'),
                     btags ++ String.mk (List.replicate lb '^'))
      | .delete => (atags ++ String.mk (List.replicate la '-'), btags)
      | .insert => (atags, btags ++ String.mk (List.replicate lb '+'))
      | .equal => (atags ++ String.mk (List.replicate la ' '),
                   btags ++ String.mk (List.replicate lb ' ')))
    ("", "")

/-- `Differ._qformat`: the `- / ? / + / ?` quad, with `?` guide lines emitted
only when the rstripped tags are nonempty (each guide line carries an explicit
trailing newline). -/
def qformat (aline bline atags btags : String) : List String :=
  let atags := pyRStrip (keepOriginalWs aline atags)
  let btags := pyRStrip (keepOriginalWs bline btags)
  ["- " ++ aline] ++
  (if atags ≠ "" then ["? " ++ atags ++ "\n"] else []) ++
  ["+ " ++ bline] ++
  (if btags ≠ "" then ["? " ++ btags ++ "\n"] else [])

/-- Best-synch-pair search of `_fancy_replace`: scan `j` then `i`, record the
first identical pair, and improve the best ratio on strict improvement.  The
`real_quick_ratio`/`quick_ratio` gates of the source are upper bounds of
`ratio` and only short-circuit work, so the conjunction is equivalent to
`ratio > best_ratio`.  The running best ratio is carried as an exact fraction
(`(37, 50)` is the initial `best_ratio = 0.74`; an update stores `2*M/T`,
whose denominator is positive because the compared lines are unequal, hence
not both empty). -/
def fancySearch (a : List String) (alo ahi : Nat) (b : List String) (blo bhi : Nat) :
    (Nat × Nat) × Option (Nat × Nat) × Option (Nat × Nat) :=
  (List.range' blo (bhi - blo)).foldl
    (fun (st : (Nat × Nat) × Option (Nat × Nat) × Option (Nat × Nat)) j =>
      (List.range' alo (ahi - alo)).foldl
        (fun (st : (Nat × Nat) × Option (Nat × Nat) × Option (Nat × Nat)) i =>
          let (bestRatio, best, eqPair) := st
          let ai := a.getD i ""
          let bj := b.getD j ""
          if ai = bj then
            (bestRatio, best, if eqPair.isNone then some (i, j) else eqPair)
          else
            let m := smMatchCount isCharacterJunk ai.data bj.data
            let T := ai.data.length + bj.data.length
            if fracLt bestRatio (2 * m, T) then ((2 * m, T), some (i, j), eqPair)
            else (bestRatio, best, eqPair))
        st)
    ((37, 50), none, none)

mutual

/-- `Differ._fancy_replace` (fuel-based; ranges shrink strictly at each
recursive call, so any fuel above `ahi + bhi` is enough). -/
def fancyReplace : Nat → List String → Nat → Nat → List String → Nat → Nat → List String
  | 0, _, _, _, _, _, _ => []
  | fuel + 1, a, alo, ahi, b, blo, bhi =>
    let (bestRatio, best, eqPair) := fancySearch a alo ahi b blo bhi
    if fracLt bestRatio (3, 4) then
      match eqPair with
      | none => plainReplace a alo ahi b blo bhi
      | some (eqi, eqj) =>
        fancyHelper fuel a alo eqi b blo eqj ++
        ["  " ++ a.getD eqi ""] ++
        fancyHelper fuel a (eqi + 1) ahi b (eqj + 1) bhi
    else
      match best with
      | some (bi, bj) =>
        let aelt := a.getD bi ""
        let belt := b.getD bj ""
        let tags := buildIntralineTags (smOpcodes isCharacterJunk aelt.data belt.data)
        fancyHelper fuel a alo bi b blo bj ++
        qformat aelt belt tags.1 tags.2 ++
        fancyHelper fuel a (bi + 1) ahi b (bj + 1) bhi
      | none => []

/-- `Differ._fancy_helper`. -/
def fancyHelper : Nat → List String → Nat → Nat → List String → Nat → Nat → List String
  | 0, _, _, _, _, _, _ => []
  | fuel + 1, a, alo, ahi, b, blo, bhi =>
    if alo < ahi then
      if blo < bhi then fancyReplace fuel a alo ahi b blo bhi
      else differDump '-' a alo ahi
    else if blo < bhi then differDump '+' b blo bhi
    else []

end

/-- `Differ.compare` with `linejunk=None`, i.e. the body of `ndiff`. -/
def differCompare (a b : List String) : List String :=
  (smOpcodes noJunk a b).foldl
    (fun acc op =>
      let (tag, alo, ahi, blo, bhi) := op
      acc ++ match tag with
      | .replace => fancyReplace (a.length + b.length + 2) a alo ahi b blo bhi
      | .delete => differDump '-' a alo ahi
      | .insert => differDump '+' b blo bhi
      | .equal => differDump ' ' a alo ahi)
    []

/-- `difflib.ndiff` with its default arguments, as called by
`SubtitleAligner.align_texts`. -/
def pyNdiff (a b : List String) : List String := differCompare a b

/-! ## alignment.py: `SubtitleAligner`

The `_line_iterator` generator is modelled as a fuel-based recursion over the
ndiff line list, with the 4-line lookahead buffer, the pending-blank counter
and the two line-number counters as explicit state.  A yielded element is
`(source_line?, target_line?, has_diff)` where each line is Python's
`(line_number, text)` pair; the synthetic blank `("", "\n")` is modelled with
line number 0 (its number slot is never read). -/

/-- One yielded triple of `_line_iterator`. -/
abbrev AlignYield := Option (Nat × String) × Option (Nat × String) × Bool

/-- The synthetic blank line `("", "\n")`. -/
def blankLine : Nat × String := (0, "\n")

/-- Tag character of a buffered diff line (`line[0]`); the exhaustion
sentinel is the string `"X"`. -/
def diffTag (s : String) : Char := s.data.headD 'X'

/-- Drop the two-character diff prefix of a line (`line[2:]`). -/
def diffText (s : String) : String := String.mk (s.data.drop 2)

/-- The pending-blank emission of `_line_iterator`: negative counts yield
target-side blanks, positive counts yield source-side blanks. -/
def blankYields (toYield : Int) : List AlignYield :=
  if toYield < 0 then List.replicate (-toYield).toNat (none, some blankLine, true)
  else List.replicate toYield.toNat (some blankLine, none, true)

/-- `SubtitleAligner._line_iterator`.  `input` is the not-yet-buffered rest of
the ndiff output, `buf` the lookahead buffer (refilled to 4 with the `"X"`
sentinel), `pending` the `blank_lines_pending` counter and `ln` the
`line_numbers` pair.  The final catch-all arm is unreachable for ndiff-shaped
input (every buffered head is one of `-`, `+`, ` `, `X`; a `?` line is always
consumed together with the `-`/`+` line it annotates); CPython would there
re-yield stale local variables forever, which no caller relies on. -/
def lineIterator : Nat → List String → List String → Int → Nat × Nat → List AlignYield
  | 0, _, _, _, _ => []
  | fuel + 1, input, buf, pending, ln =>
    let need := 4 - buf.length
    let buf := buf ++ input.take need ++ List.replicate (need - input.length) "X"
    let input := input.drop need
    match buf with
    | [l0, l1, l2, l3] =>
      let (t0, t1, t2, t3) := (diffTag l0, diffTag l1, diffTag l2, diffTag l3)
      let (ln0, ln1) := ln
      if t0 = 'X' then
        blankYields pending
      else if t0 = '-' ∧ t1 = '?' ∧ t2 = '+' ∧ t3 = '?' then
        (some (ln0 + 1, diffText l0), some (ln1 + 1, diffText l2), true) ::
          lineIterator fuel input [] pending (ln0 + 1, ln1 + 1)
      else if t0 = '-' ∧ t1 = '-' ∧ t2 = '+' ∧ t3 = '+' then
        (some (ln0 + 1, diffText l0), none, true) ::
          lineIterator fuel input [l1, l2, l3] (pending - 1) (ln0 + 1, ln1)
      else if (t0 = '-' ∧ t1 = '-' ∧ t2 = '?' ∧ t3 = '+') ∨
              (t0 = '-' ∧ t1 = '-' ∧ t2 = '+') ∨ (t0 = '-' ∧ t1 = ' ') then
        blankYields (pending - 1) ++
          ((some (ln0 + 1, diffText l0), none, true) ::
            lineIterator fuel input [l1, l2, l3] 0 (ln0 + 1, ln1))
      else if t0 = '-' ∧ t1 = '+' ∧ t2 = '?' then
        (some (ln0 + 1, diffText l0), some (ln1 + 1, diffText l1), true) ::
          lineIterator fuel input [l3] pending (ln0 + 1, ln1 + 1)
      else if t0 = '-' ∧ t1 = '?' ∧ t2 = '+' then
        (some (ln0 + 1, diffText l0), some (ln1 + 1, diffText l2), true) ::
          lineIterator fuel input [l3] pending (ln0 + 1, ln1 + 1)
      else if t0 = '-' then
        (some (ln0 + 1, diffText l0), none, true) ::
          lineIterator fuel input [l1, l2, l3] (pending - 1) (ln0 + 1, ln1)
      else if t0 = '+' ∧ t1 = '-' ∧ t2 = '-' then
        (none, some (ln1 + 1, diffText l0), true) ::
          lineIterator fuel input [l1, l2, l3] (pending + 1) (ln0, ln1 + 1)
      else if (t0 = '+' ∧ t1 = ' ') ∨ (t0 = '+' ∧ t1 = '-') then
        blankYields (pending + 1) ++
          ((none, some (ln1 + 1, diffText l0), true) ::
            lineIterator fuel input [l1, l2, l3] 0 (ln0, ln1 + 1))
      else if t0 = '+' then
        (none, some (ln1 + 1, diffText l0), true) ::
          lineIterator fuel input [l1, l2, l3] (pending + 1) (ln0, ln1 + 1)
      else if t0 = ' ' then
        (some (ln0 + 1, diffText l0), some (ln1 + 1, diffText l0), false) ::
          lineIterator fuel input [l1, l2, l3] pending (ln0 + 1, ln1 + 1)
      else []
    | _ => []

/-- Target-side step of `_pair_lines` (the part after the `source_line`
handling of one loop iteration). -/
def pairLinesTarget (t : Option (Nat × String)) (flag : Nat) (tgt : List String) :
    Nat × List String :=
  match t with
  | some tl => if 0 < flag then (flag - 1, tgt) else (flag, tl.2 :: tgt)
  | none => (flag, tgt)

/-- Main loop of `_pair_lines`: a source text equal to `"\n"` increments
`flag` and skips the whole iteration (Python's `continue`), a positive `flag`
swallows one target line. -/
def pairLinesGo : List AlignYield → Nat → List String → List String →
    List String × List String
  | [], _, src, tgt => (src.reverse, tgt.reverse)
  | (s, t, _) :: rest, flag, src, tgt =>
    match s with
    | some sl =>
      if sl.2 = "\n" then pairLinesGo rest (flag + 1) src tgt
      else
        let (flag, tgt) := pairLinesTarget t flag tgt
        pairLinesGo rest flag (sl.2 :: src) tgt
    | none =>
      let (flag, tgt) := pairLinesTarget t flag tgt
      pairLinesGo rest flag src tgt

/-- Worker for `fillTargetBlanks`. -/
def fillTargetBlanksGo (prev : String) : List String → List String
  | [] => []
  | y :: ys =>
    let yy := if y = "\n" then prev else y
    yy :: fillTargetBlanksGo yy ys

/-- Postprocessing loop of `_pair_lines`: from index 1 on, a `"\n"` entry is
replaced by the (already rewritten) previous entry. -/
def fillTargetBlanks : List String → List String
  | [] => []
  | x :: rest => x :: fillTargetBlanksGo x rest

/-- `SubtitleAligner._pair_lines`. -/
def pairLines (yields : List AlignYield) : List String × List String :=
  let (src, tgt) := pairLinesGo yields 0 [] []
  (src, fillTargetBlanks tgt)

/-- `SubtitleAligner.align_texts`: ndiff the two line lists and pair the
result.  The iterator performs at most one step per diff line plus the final
sentinel step, so `length + 2` fuel never runs out. -/
def alignTexts (sourceText targetText : List String) : List String × List String :=
  let diffLines := pyNdiff sourceText targetText
  pairLines (lineIterator (diffLines.length + 2) diffLines [] 0 (0, 0))

/-! ## optimize.py: `SubtitleOptimizer` -/

/-- `MAX_STEPS` of `optimize.py`. -/
def MAX_STEPS : Nat := 3

/-- Worker for `splitChunks`, slicing `batchNum ≥ 1` items at a time
(`x :: xs.take (batchNum - 1)` is `items[i : i + batchNum]`); structural on
fuel (each step consumes at least one item, so `items.length` fuel never runs
out). -/
def splitChunksGo (batchNum : Nat) : Nat → List (String × String) → List Batch
  | 0, _ => []
  | _ + 1, [] => []
  | fuel + 1, x :: xs =>
    (x :: xs.take (batchNum - 1)) :: splitChunksGo batchNum fuel (xs.drop (batchNum - 1))

/-- `SubtitleOptimizer._split_chunks`: slices of `batch_num` consecutive
items.  Python's `range(0, n, step)` raises `ValueError` for `step = 0`; the
model returns `[]` there and every claim assumes `1 ≤ batch_num`. -/
def splitChunks (batchNum : Nat) (items : List (String × String)) : List Batch :=
  if batchNum = 0 then [] else splitChunksGo batchNum items.length items

/-- One similarity failure entry of `_validate_optimization_result`; the
source interpolates exactly these five values into the feedback string
(`Key '{key}': similarity {similarity:.1%} < {threshold:.0%}. Original:
'{original}' -> Optimized: '{optimized}'`); the model keeps them structured. -/
structure SimIssue where
  key : String
  similarity : Rat
  threshold : Rat
  original : String
  optimized : String
deriving DecidableEq

/-- Structured form of the validator's explanation string. -/
inductive ValidationReport where
  | ok
  | keyMismatch (missing extra required : List String)
  | lowSimilarity (issues : List SimIssue)
deriving DecidableEq

/-- Loop body of the similarity check of `_validate_optimization_result` for
one position: both texts are normalised with `re.sub(r"\s+", " ", ·).strip()`,
compared with a character-level `SequenceMatcher(None, ·, ·).ratio()`, and the
threshold is 0.3 when `count_words(original) <= 10`, else 0.7; a position
below threshold produces a report entry carrying the ratio, the threshold and
both texts. -/
def simIssueFor (originalChunk optimizedChunk : Batch) (key : String) : Option SimIssue :=
  let originalText := (dictGet originalChunk key).getD ""
  let optimizedText := (dictGet optimizedChunk key).getD ""
  let originalCleaned := cleanForCompare originalText
  let optimizedCleaned := cleanForCompare optimizedText
  let m := smMatchCount noJunk originalCleaned.data optimizedCleaned.data
  let T := originalCleaned.data.length + optimizedCleaned.data.length
  let pq : Nat × Nat := if count_words originalText ≤ 10 then (3, 10) else (7, 10)
  if ratioLtFrac m T pq.1 pq.2 then
    some ⟨key, calculateRatio m T, (pq.1 : Rat) / (pq.2 : Rat),
      originalText, optimizedText⟩
  else none

/-- `SubtitleOptimizer._validate_optimization_result`.  The key-set check
compares Python sets; on mismatch the missing/extra/required keys are
reported.  Otherwise every expected position is checked: both texts are
normalised with `re.sub(r"\s+", " ", ·).strip()`, compared with a
character-level `SequenceMatcher(None, ·, ·).ratio()`, and the threshold is
0.3 when `count_words(original) <= 10`, else 0.7.  Python iterates the
expected keys as a set (unordered); the model iterates them in insertion
order, which the claims (membership statements) do not distinguish. -/
def validateOptimizationResult (originalChunk optimizedChunk : Batch) :
    Bool × ValidationReport :=
  let expectedKeys := dictKeys originalChunk
  let actualKeys := dictKeys optimizedChunk
  if !sameKeySet expectedKeys actualKeys then
    (false, .keyMismatch (expectedKeys.filter (fun k => !actualKeys.contains k))
      (actualKeys.filter (fun k => !expectedKeys.contains k)) expectedKeys)
  else
    let issues := expectedKeys.filterMap (simIssueFor originalChunk optimizedChunk)
    if issues.isEmpty then (true, .ok) else (false, .lowSimilarity issues)

/-- Accumulating decimal parse of a digit string. -/
def digitsToNatGo : List Char → Nat → Option Nat
  | [], acc => some acc
  | c :: rest, acc =>
    if c.isDigit then digitsToNatGo rest (acc * 10 + digitVal c) else none

/-- Python `int(s)` on the canonical decimal key strings produced upstream
(`str(i)`); an optional sign followed by digits.  (CPython also accepts
surrounding whitespace and underscores, which cannot occur in these keys.) -/
def pyParseInt (s : String) : Option Int :=
  match s.data with
  | [] => none
  | '-' :: rest =>
    if rest.isEmpty then none else (digitsToNatGo rest 0).map (fun n => -(n : Int))
  | cs => (digitsToNatGo cs 0).map Int.ofNat

/-- `SubtitleOptimizer._repair_subtitle`: align the two value lists; on a
length mismatch of the aligned lists return the optimized dict unchanged;
otherwise rebuild the dict with consecutive keys from `int(start_id)`.  The
`except Exception` arm catches the `StopIteration` of `next(iter(...))` on an
empty original and the `ValueError` of `int(...)` on a non-numeric first key,
both returning the optimized dict unchanged. -/
def repairSubtitle (original optimized : Batch) : Batch :=
  let originalList := dictValues original
  let optimizedList := dictValues optimized
  let (alignedSource, alignedTarget) := alignTexts originalList optimizedList
  if alignedSource.length ≠ alignedTarget.length then optimized
  else
    match original with
    | [] => optimized
    | (k0, _) :: _ =>
      match pyParseInt k0 with
      | none => optimized
      | some startId =>
        alignedTarget.enum.map (fun p => (toString (startId + p.1), p.2))

/-- Outcome of one agent-loop attempt, abstracting the external
correction-service call and the `json_repair` parse of its response:
`raised` — `call_llm` raised after its own retry budget; `emptyContent` — the
response content was falsy; `content (some d)` — the content parsed as the
dict `d`; `content none` — it parsed as a non-dict value. -/
inductive LLMStep where
  | raised
  | emptyContent
  | content (parsed : Option Batch)
deriving DecidableEq

/-- The exceptions that can escape `agent_loop`. -/
inductive AgentError where
  | llmError
  | emptyResult
  | wrongType
deriving DecidableEq

deriving instance DecidableEq for Except

/-- Worker for `agentLoop`: the `for step in range(MAX_STEPS)` loop with
`last_result` threaded through; the base case is the fall-through
`return self._repair_subtitle(subtitle_chunk, last_result) if last_result
else subtitle_chunk` — note `if last_result` is Python truthiness, so an
empty dict falls back to the original chunk exactly like `None`. -/
def agentLoopGo (chunk : Batch) : Nat → List LLMStep → Option Batch →
    Except AgentError Batch
  | 0, _, lastResult =>
    .ok (match lastResult with
      | some last => if last.isEmpty then chunk else repairSubtitle chunk last
      | none => chunk)
  | n + 1, steps, _lastResult =>
    match steps.headD .raised with
    | .raised => .error .llmError
    | .emptyContent => .error .emptyResult
    | .content none => .error .wrongType
    | .content (some d) =>
      if (validateOptimizationResult chunk d).1 then .ok (repairSubtitle chunk d)
      else agentLoopGo chunk n steps.tail (some d)

/-- `SubtitleOptimizer.agent_loop`, with the per-attempt outcomes of the
external service supplied as `steps` (a missing entry counts as a raising
call).  The growing conversation only feeds the external service and is
subsumed by `steps`.  A response text that fails `isinstance(parsed, dict)`
or is empty raises a `ValueError` out of the loop; a validation failure
appends feedback and retries. -/
def agentLoop (chunk : Batch) (steps : List LLMStep) : Except AgentError Batch :=
  agentLoopGo chunk MAX_STEPS steps none

/-- `SubtitleOptimizer._optimize_chunk`: run the agent loop and return the
original chunk on any exception. -/
def optimizeChunk (chunk : Batch) (steps : List LLMStep) : Batch :=
  match agentLoop chunk steps with
  | .ok result => result
  | .error _ => chunk

/-- `SubtitleOptimizer._parallel_optimize` with `is_running` true throughout:
results are collected in submission order and merged into one dict; a chunk
whose processing raised is replaced by the original chunk.  (In the source
the per-chunk exception is already caught inside `_optimize_chunk`; the
collect loop's own `except` arm performs the same substitution, so failure at
either level merges the originals.) -/
def parallelOptimize (chunks : List Batch) (stepss : List (List LLMStep)) : Batch :=
  (chunks.zip stepss).foldl
    (fun acc p => dictUpdate acc (optimizeChunk p.1 p.2)) []

/-- `SubtitleOptimizer._create_segments`: substitute each segment's text with
the merged dict's value at its 1-based position, falling back to the original
text, keeping the original timing (the new `ASRDataSeg` gets the constructor
default `translated_text = ""`). -/
def createSegments (originalSegments : List ASRDataSeg) (optimizedDict : Batch) :
    List ASRDataSeg :=
  originalSegments.enum.map (fun p =>
    { text := (dictGet optimizedDict (toString (p.1 + 1))).getD p.2.text
      start_time := p.2.start_time
      end_time := p.2.end_time })

/-- The position→text dict built by `optimize_subtitle`
(`{str(i): seg.text for i, seg in enumerate(asr_data.segments, 1)}`). -/
def subtitleDictOf (asrData : ASRData) : Batch :=
  asrData.segments.enum.map (fun p => (toString (p.1 + 1), p.2.text))

/-- `SubtitleOptimizer.optimize_subtitle` on an `ASRData` input: build the
position dict, chunk it, optimize the chunks, and build a new `ASRData` from
the substituted segments. -/
def optimizeSubtitle (asrData : ASRData) (batchNum : Nat)
    (stepss : List (List LLMStep)) : ASRData :=
  let subtitleDict := subtitleDictOf asrData
  let chunks := splitChunks batchNum subtitleDict
  let optimizedDict := parallelOptimize chunks stepss
  ASRData.make (createSegments asrData.segments optimizedDict)

/-! ## Supporting lemmas -/

/-- The start-time order on segments. -/
def startLe (a b : ASRDataSeg) : Prop := a.start_time ≤ b.start_time

instance : DecidableRel startLe := fun a b => by unfold startLe; infer_instance

instance : IsTotal ASRDataSeg startLe :=
  ⟨fun a b => Int.le_total a.start_time b.start_time⟩

instance : IsTrans ASRDataSeg startLe :=
  ⟨fun _ _ _ hab hbc => le_trans hab hbc⟩

theorem ASRData.make_segments (segs : List ASRDataSeg) :
    (ASRData.make segs).segments =
      (segs.filter (fun seg => seg.text != "" && pyStrip seg.text != "")).insertionSort
        (fun a b => a.start_time ≤ b.start_time) := rfl

theorem splitChunksGo_join (B : Nat) (fuel : Nat) (items : List (String × String))
    (hfuel : items.length ≤ fuel) : (splitChunksGo B fuel items).flatten = items := by
  induction fuel generalizing items with
  | zero =>
    match items with
    | [] => simp [splitChunksGo]
    | _ :: _ => simp at hfuel
  | succ fuel ih =>
    match items with
    | [] => simp [splitChunksGo]
    | x :: xs =>
      simp only [splitChunksGo, List.flatten_cons]
      rw [ih (xs.drop (B - 1)) (by have := List.length_drop (B - 1) xs; simp at hfuel; omega)]
      simp [List.take_append_drop]

theorem splitChunks_join (B : Nat) (d : Batch) (hB : 1 ≤ B) :
    (splitChunks B d).flatten = d := by
  unfold splitChunks
  rw [if_neg (by omega)]
  exact splitChunksGo_join B d.length d le_rfl

theorem splitChunksGo_mem_length (B : Nat) (hB : 1 ≤ B) (fuel : Nat)
    (items : List (String × String)) (c : Batch)
    (hc : c ∈ splitChunksGo B fuel items) : c.length ≤ B ∧ c ≠ [] := by
  induction fuel generalizing items with
  | zero => simp [splitChunksGo] at hc
  | succ fuel ih =>
    match items with
    | [] => simp [splitChunksGo] at hc
    | x :: xs =>
      simp only [splitChunksGo, List.mem_cons] at hc
      rcases hc with rfl | hc
      · constructor
        · simp only [List.length_cons, List.length_take]
          omega
        · simp
      · exact ih _ hc

theorem splitChunksGo_nonfinal_length (B : Nat) (hB : 1 ≤ B) (fuel : Nat)
    (items : List (String × String)) (i : Nat) (c : Batch)
    (hget : (splitChunksGo B fuel items).get? i = some c)
    (hnext : i + 1 < (splitChunksGo B fuel items).length) : c.length = B := by
  induction fuel generalizing items i with
  | zero => simp [splitChunksGo] at hget
  | succ fuel ih =>
    match items with
    | [] => simp [splitChunksGo] at hget
    | x :: xs =>
      simp only [splitChunksGo] at hget hnext
      match i with
      | 0 =>
        simp only [List.get?_cons_zero, Option.some.injEq] at hget
        simp only [List.length_cons] at hnext
        have hne : splitChunksGo B fuel (xs.drop (B - 1)) ≠ [] := by
          intro hemp
          rw [hemp] at hnext
          simp at hnext
        have hdrop : xs.drop (B - 1) ≠ [] := by
          intro hemp
          rw [hemp] at hne
          match fuel with
          | 0 => exact hne rfl
          | _ + 1 => exact hne rfl
        have hlen : B - 1 < xs.length := by
          by_contra hcon
          exact hdrop (List.drop_eq_nil_of_le (by omega))
        subst hget
        simp only [List.length_cons, List.length_take]
        omega
      | j + 1 =>
        simp only [List.get?_cons_succ] at hget
        simp only [List.length_cons] at hnext
        exact ih _ j hget (by omega)

theorem dictKeys_flatten (xs : List Batch) :
    (xs.map dictKeys).flatten = dictKeys xs.flatten := by
  simp only [dictKeys, List.map_flatten]
  rfl

theorem createSegments_get (segs : List ASRDataSeg) (d : Batch) (i : Nat)
    (s : ASRDataSeg) (h : segs.get? i = some s) :
    (createSegments segs d).get? i =
      some { text := (dictGet d (toString (i + 1))).getD s.text
             start_time := s.start_time
             end_time := s.end_time } := by
  unfold createSegments
  rw [List.get?_map, List.get?_enum, h]
  rfl

/-! ## Claim theorems -/

/-- C7: constructing a Transcript (`ASRData.__init__`) from any list of
segments yields a sequence sorted ascending by `start_time` in which no
segment has empty or all-whitespace text, and every input segment with
non-whitespace text is present. -/
theorem transcript_construction_invariants (segs : List ASRDataSeg) :
    (ASRData.make segs).segments.Sorted startLe
    ∧ (∀ s ∈ (ASRData.make segs).segments, s.text ≠ "" ∧ pyStrip s.text ≠ "")
    ∧ (∀ s ∈ segs, s.text ≠ "" → pyStrip s.text ≠ "" →
        s ∈ (ASRData.make segs).segments) := by
  rw [ASRData.make_segments]
  refine ⟨List.sorted_insertionSort startLe _, ?_, ?_⟩
  · intro s hs
    have hmem := (List.perm_insertionSort
      (fun a b : ASRDataSeg => a.start_time ≤ b.start_time) _).mem_iff.mp hs
    have := List.of_mem_filter hmem
    simp only [bne_iff_ne, ne_eq, Bool.and_eq_true, decide_eq_true_eq] at this
    exact this
  · intro s hs htext hstrip
    refine (List.perm_insertionSort
      (fun a b : ASRDataSeg => a.start_time ≤ b.start_time) _).mem_iff.mpr ?_
    refine List.mem_filter.mpr ⟨hs, ?_⟩
    simp only [bne_iff_ne, ne_eq, Bool.and_eq_true, decide_eq_true_eq]
    exact ⟨htext, hstrip⟩

/-- Witness for C7 at a concrete input: the nonblank segment of a mixed list
is present in the constructed transcript. -/
theorem transcript_construction_invariants_witness :
    ({ text := "Early", start_time := 0, end_time := 500 } : ASRDataSeg) ∈
      (ASRData.make [{ text := "Late", start_time := 5000, end_time := 6000 },
        { text := "   ", start_time := 100, end_time := 200 },
        { text := "Early", start_time := 0, end_time := 500 }]).segments :=
  (transcript_construction_invariants _).2.2 _ (by decide) (by decide) (by decide)

/-- C8: for every ordered mapping and batch size `B ≥ 1`, the Chunker
produces an ordered list of nonempty sub-mappings of at most `B` consecutive
entries whose concatenation is the original mapping (hence original relative
order, no position in more than one batch, and full coverage), with every
non-final batch of size exactly `B`. -/
theorem chunker_partition (d : Batch) (B : Nat) (hB : 1 ≤ B) :
    (splitChunks B d).flatten = d
    ∧ ((splitChunks B d).map dictKeys).flatten = dictKeys d
    ∧ (∀ c ∈ splitChunks B d, c.length ≤ B ∧ c ≠ [])
    ∧ (∀ i c, (splitChunks B d).get? i = some c →
        i + 1 < (splitChunks B d).length → c.length = B) := by
  have hjoin := splitChunks_join B d hB
  refine ⟨hjoin, ?_, ?_, ?_⟩
  · rw [dictKeys_flatten, hjoin]
  · intro c hc
    unfold splitChunks at hc
    rw [if_neg (by omega)] at hc
    exact splitChunksGo_mem_length B hB d.length d c hc
  · intro i c hget hnext
    unfold splitChunks at hget hnext
    rw [if_neg (by omega)] at hget hnext
    exact splitChunksGo_nonfinal_length B hB d.length d i c hget hnext

/-- Witness for C8 at a concrete input: 5 positions with batch size 2 split
into batches of sizes 2, 2, 1. -/
theorem chunker_partition_witness :
    (splitChunks 2 [("1", "a"), ("2", "b"), ("3", "c"), ("4", "d"), ("5", "e")]).flatten
      = [("1", "a"), ("2", "b"), ("3", "c"), ("4", "d"), ("5", "e")] :=
  (chunker_partition [("1", "a"), ("2", "b"), ("3", "c"), ("4", "d"), ("5", "e")] 2
    (by decide)).1

/-- C9: for every original segment, the corrected transcript's segment at the
same position keeps the original `start_time` and `end_time` unchanged and
substitutes only the text, falling back to the original text when the merged
mapping has no value at that 1-based position.  (The original segment list is
an unchanged input of this pure function: the source constructs fresh
`ASRDataSeg` objects and never writes to the originals.) -/
theorem create_segments_substitution (segs : List ASRDataSeg) (d : Batch) :
    (createSegments segs d).length = segs.length
    ∧ ∀ i s, segs.get? i = some s →
        (createSegments segs d).get? i =
          some { text := (dictGet d (toString (i + 1))).getD s.text
                 start_time := s.start_time
                 end_time := s.end_time } := by
  constructor
  · unfold createSegments
    simp
  · exact fun i s h => createSegments_get segs d i s h

/-- Witness for C9 at a concrete input: position 2 falls back to the original
text while position 1 is substituted, timings unchanged. -/
theorem create_segments_substitution_witness :
    (createSegments [{ text := "a", start_time := 0, end_time := 10 },
        { text := "b", start_time := 20, end_time := 30 }] [("1", "A")]).get? 1 =
      some { text := "b", start_time := 20, end_time := 30 } :=
  (create_segments_substitution [{ text := "a", start_time := 0, end_time := 10 },
    { text := "b", start_time := 20, end_time := 30 }] [("1", "A")]).2 1
    { text := "b", start_time := 20, end_time := 30 } (by decide)

/-- C10: saving to a path with an unrecognised extension raises the
unsupported-format error, but only after the parent-directory creation
effect; the failed save is not side-effect-free. -/
theorem save_unsupported_format (a : ASRData) (p : String)
    (h1 : pyEndsWith p ".srt" = false) (h2 : pyEndsWith p ".txt" = false)
    (h3 : pyEndsWith p ".json" = false) :
    ASRData.save a p =
      ([SaveEffect.mkdirParents p], .error ("Unsupported format: " ++ p)) := by
  unfold ASRData.save
  rw [h1, h2, h3]
  rfl

/-- Witness for C10 at a concrete input. -/
theorem save_unsupported_format_witness :
    ASRData.save (ASRData.make []) "clip.xyz" =
      ([SaveEffect.mkdirParents "clip.xyz"], .error "Unsupported format: clip.xyz") :=
  save_unsupported_format (ASRData.make []) "clip.xyz" (by decide) (by decide) (by decide)

/-- C1 counterexample: aligning source `["A"]` with target `["A", "B"]` does
NOT produce two equal-length lists of length 2 — the synthetic blank emitted
for the inserted line `"B"` is consumed by `_pair_lines` (a source-side
`"\n"` only increments the skip flag and is dropped), so the outputs are
`["A"]` and `["A", "B"]` of lengths 1 and 2. -/
theorem align_insert_counterexample :
    alignTexts ["A"] ["A", "B"] = (["A"], ["A", "B"])
    ∧ ¬((alignTexts ["A"] ["A", "B"]).1.length = 2
        ∧ (alignTexts ["A"] ["A", "B"]).2.length = 2) := by
  decide

/-- C1 amended: aligning source `["A"]` with target `["A", "B"]` returns the
source list unchanged and the target list unchanged — lists of lengths 1 and
2; no synthetic blank survives into the output (the blank the line iterator
emits for the inserted line is dropped by the pairing stage). -/
theorem align_insert_actual :
    alignTexts ["A"] ["A", "B"] = (["A"], ["A", "B"]) := rfl

/-- Helper: a perfect echo step — the candidate equals the original chunk, so
key sets match and every similarity is 1. -/
def echoStep (chunk : Batch) : LLMStep := .content (some chunk)

/-- C4 counterexample: a response that fails to parse as a dictionary on the
FIRST of the three attempts makes the agent loop raise immediately — even
though two further attempts (which would parse and validate) remain.  Were
the claim true (parse failure treated like a validation failure, error
propagating only after all attempts), the loop would continue and return
`.ok`. -/
theorem agent_loop_parse_failure_counterexample :
    agentLoop [("1", "Hello")]
      [.content none, echoStep [("1", "Hello")], echoStep [("1", "Hello")]] =
      .error .wrongType := by
  decide

/-- C4 amended: a correction-service response that fails to decode as a
dictionary raises out of the agent loop immediately on the attempt where it
occurs (whether or not attempts remain) — parse failures are not retried; the
error is caught one level up by the per-chunk handler, which returns the
original batch untouched. -/
theorem agent_loop_parse_failure_propagates (chunk : Batch) (steps : List LLMStep)
    (k : Nat) (hk : k < MAX_STEPS)
    (hpre : ∀ j, j < k → ∃ d, steps.get? j = some (.content (some d)) ∧
      (validateOptimizationResult chunk d).1 = false)
    (hfail : steps.get? k = some (.content none)) :
    agentLoop chunk steps = .error .wrongType
    ∧ optimizeChunk chunk steps = chunk := by
  have hloop : agentLoop chunk steps = .error .wrongType := by
    unfold agentLoop
    have main : ∀ (n : Nat) (rest : List LLMStep) (kk : Nat) (last : Option Batch),
        kk < n →
        (∀ j, j < kk → ∃ d, rest.get? j = some (.content (some d)) ∧
          (validateOptimizationResult chunk d).1 = false) →
        rest.get? kk = some (.content none) →
        agentLoopGo chunk n rest last = .error .wrongType := by
      intro n
      induction n with
      | zero => intro rest kk last hlt _ _; omega
      | succ n ih =>
        intro rest kk last hlt hpre2 hfail2
        match kk with
        | 0 =>
          match rest with
          | [] => simp at hfail2
          | r :: rs =>
            simp only [List.get?_cons_zero, Option.some.injEq] at hfail2
            subst hfail2
            simp [agentLoopGo]
        | kk + 1 =>
          match rest with
          | [] => simp at hfail2
          | r :: rs =>
            obtain ⟨d, hd, hval⟩ := hpre2 0 (by omega)
            simp only [List.get?_cons_zero, Option.some.injEq] at hd
            subst hd
            simp only [agentLoopGo, List.headD_cons, hval, Bool.false_eq_true,
              if_false, List.tail_cons]
            exact ih rs kk (some d) (by omega)
              (fun j hj => hpre2 (j + 1) (by omega)) hfail2
    exact main MAX_STEPS steps k none hk hpre hfail
  refine ⟨hloop, ?_⟩
  unfold optimizeChunk
  rw [hloop]

/-- Witness for C4 amended: parse failure on the second attempt, after a
first attempt that parsed but failed validation, raises `.error .wrongType`
and the chunk-level handler returns the original batch. -/
theorem agent_loop_parse_failure_propagates_witness :
    agentLoop [("1", "Hello")]
      [.content (some [("1", "zzz")]), .content none, echoStep [("1", "Hello")]] =
      .error .wrongType
    ∧ optimizeChunk [("1", "Hello")]
      [.content (some [("1", "zzz")]), .content none, echoStep [("1", "Hello")]] =
      [("1", "Hello")] :=
  agent_loop_parse_failure_propagates [("1", "Hello")]
    [.content (some [("1", "zzz")]), .content none, echoStep [("1", "Hello")]]
    1 (by decide)
    (fun j hj => by
      match j, hj with
      | 0, _ => exact ⟨[("1", "zzz")], by decide⟩)
    (by decide)

/-- C5 counterexample: with all three attempts parsing successfully as the
empty dictionary (which always fails key validation against a nonempty
batch), the loop returns the ORIGINAL batch — not the Aligner-repaired
version of the last successfully parsed candidate, which would be
`[("1", "\n")]` — because `if last_result` treats the parsed empty dict like
`None`.  (The claim's other arm, "no attempt ever parsed successfully", can
never reach the exhaustion return at all: a parse failure raises.) -/
theorem agent_loop_exhaustion_counterexample :
    agentLoop [("1", "A")]
      [.content (some []), .content (some []), .content (some [])] = .ok [("1", "A")]
    ∧ repairSubtitle [("1", "A")] [] = [("1", "\n")]
    ∧ ([("1", "\n")] : Batch) ≠ [("1", "A")] := by
  decide

/-- C5 amended: if all 3 validation attempts of the agent loop fail (each
response parsing successfully), the loop returns without raising: the
Aligner-repaired version of the last parsed candidate when that candidate is
a non-empty dictionary, and the original batch unchanged when the last parsed
candidate is the empty dictionary (`if last_result` is falsy for `{}`).  A
run in which no attempt parses successfully cannot reach this return — the
parse failure raises out of the loop instead. -/
theorem agent_loop_exhaustion_best_effort (chunk d1 d2 d3 : Batch)
    (h1 : (validateOptimizationResult chunk d1).1 = false)
    (h2 : (validateOptimizationResult chunk d2).1 = false)
    (h3 : (validateOptimizationResult chunk d3).1 = false) :
    agentLoop chunk [.content (some d1), .content (some d2), .content (some d3)] =
      .ok (if d3.isEmpty then chunk else repairSubtitle chunk d3) := by
  unfold agentLoop MAX_STEPS
  simp [agentLoopGo, h1, h2, h3]

/-- Witness for C5 amended: three key-mismatched candidates exhaust the loop
and the repaired last candidate is returned. -/
theorem agent_loop_exhaustion_best_effort_witness :
    agentLoop [("1", "A")]
      [.content (some [("2", "A")]), .content (some [("2", "A")]),
        .content (some [("2", "A")])] =
      .ok (if ([("2", "A")] : Batch).isEmpty then [("1", "A")]
           else repairSubtitle [("1", "A")] [("2", "A")]) :=
  agent_loop_exhaustion_best_effort [("1", "A")] [("2", "A")] [("2", "A")] [("2", "A")]
    (by decide) (by decide) (by decide)

/-- The similarity ratio the Validator computes for a position: character
`SequenceMatcher(None, ·, ·).ratio()` of the whitespace-normalised texts. -/
def simRatioFor (orig cand : Batch) (key : String) : Rat :=
  charRatio (cleanForCompare ((dictGet orig key).getD ""))
    (cleanForCompare ((dictGet cand key).getD ""))

/-- The acceptance threshold the Validator applies for a position. -/
def thresholdFor (orig : Batch) (key : String) : Rat :=
  if count_words ((dictGet orig key).getD "") ≤ 10 then (3 : Rat) / 10
  else (7 : Rat) / 10

/-- The similarity failures reported by the Validator. -/
def simIssuesOf (orig cand : Batch) : List SimIssue :=
  match (validateOptimizationResult orig cand).2 with
  | .lowSimilarity issues => issues
  | _ => []

theorem ratioLtFrac_iff (m T p q : Nat) (hq : 0 < q) :
    ratioLtFrac m T p q = true ↔ calculateRatio m T < (p : Rat) / (q : Rat) := by
  have hq0 : (0 : Rat) < q := by exact_mod_cast hq
  unfold ratioLtFrac fracLt calculateRatio
  by_cases hT : T = 0
  · subst hT
    simp only [ne_eq, not_true_eq_false, if_false, ite_false, decide_eq_true_eq,
      mul_one, one_mul]
    rw [lt_div_iff hq0, one_mul]
    exact_mod_cast Iff.rfl
  · have hT0 : (0 : Rat) < T := by
      have : 0 < T := Nat.pos_of_ne_zero hT
      exact_mod_cast this
    simp only [ne_eq, hT, not_false_eq_true, if_true, ite_true, decide_eq_true_eq]
    rw [div_lt_div_iff hT0 hq0]
    exact_mod_cast Iff.rfl

theorem simIssueFor_spec (orig cand : Batch) (key : String) :
    simIssueFor orig cand key =
      (if simRatioFor orig cand key < thresholdFor orig key then
        some ⟨key, simRatioFor orig cand key, thresholdFor orig key,
          (dictGet orig key).getD "", (dictGet cand key).getD ""⟩
      else none) := by
  unfold simIssueFor simRatioFor thresholdFor charRatio smRatio
  set m := smMatchCount noJunk (cleanForCompare ((dictGet orig key).getD "")).data
    (cleanForCompare ((dictGet cand key).getD "")).data with hm
  set T := (cleanForCompare ((dictGet orig key).getD "")).data.length +
    (cleanForCompare ((dictGet cand key).getD "")).data.length with hT
  have h3 : ((3 : Nat) : Rat) = 3 := by norm_num
  have h7 : ((7 : Nat) : Rat) = 7 := by norm_num
  have h10 : ((10 : Nat) : Rat) = 10 := by norm_num
  by_cases hc : count_words ((dictGet orig key).getD "") ≤ 10
  · simp only [hc, ite_true]
    have hb := ratioLtFrac_iff m T 3 10 (by norm_num)
    rw [h3, h10] at hb
    cases hR : ratioLtFrac m T 3 10 with
    | true =>
      have hlt := hb.mp hR
      simp only [hR, ite_true, if_pos hlt, h3, h10]
    | false =>
      have hnlt : ¬ (calculateRatio m T < 3 / 10) := fun hcon => by
        rw [hb.mpr hcon] at hR
        exact absurd hR (by simp)
      simp only [hR, Bool.false_eq_true, ite_false, if_neg hnlt]
  · simp only [hc, ite_false]
    have hb := ratioLtFrac_iff m T 7 10 (by norm_num)
    rw [h7, h10] at hb
    cases hR : ratioLtFrac m T 7 10 with
    | true =>
      have hlt := hb.mp hR
      simp only [hR, ite_true, if_pos hlt, h7, h10]
    | false =>
      have hnlt : ¬ (calculateRatio m T < 7 / 10) := fun hcon => by
        rw [hb.mpr hcon] at hR
        exact absurd hR (by simp)
      simp only [hR, Bool.false_eq_true, ite_false, if_neg hnlt]

theorem simIssuesOf_eq (orig cand : Batch)
    (hkeys : sameKeySet (dictKeys orig) (dictKeys cand) = true) :
    simIssuesOf orig cand = (dictKeys orig).filterMap (simIssueFor orig cand) := by
  unfold simIssuesOf validateOptimizationResult
  simp only [hkeys, Bool.not_true, Bool.false_eq_true, ite_false, if_false]
  cases h : ((dictKeys orig).filterMap (simIssueFor orig cand)).isEmpty with
  | true =>
    simp only [ite_true, if_pos rfl]
    exact (List.isEmpty_iff.mp h).symm
  | false => simp

/-- C6: for every position of a validated batch (key sets agreeing), the
Validator accepts the position if and only if the similarity ratio — the
character-level `SequenceMatcher` ratio of the whitespace-normalised original
and candidate texts — is at least the threshold, which is 0.3 when the
original text's word/character count is at most 10 and 0.7 otherwise; every
failing position is reported with its ratio, its threshold, and both text
values; and the batch passes exactly when no position fails. -/
theorem validator_similarity_rule (orig cand : Batch)
    (hkeys : sameKeySet (dictKeys orig) (dictKeys cand) = true) :
    ((validateOptimizationResult orig cand).1 = true ↔ simIssuesOf orig cand = [])
    ∧ (∀ key ∈ dictKeys orig,
        ((¬ ∃ issue ∈ simIssuesOf orig cand, issue.key = key) ↔
          thresholdFor orig key ≤ simRatioFor orig cand key))
    ∧ (∀ issue ∈ simIssuesOf orig cand,
        issue = ⟨issue.key, simRatioFor orig cand issue.key, thresholdFor orig issue.key,
          (dictGet orig issue.key).getD "", (dictGet cand issue.key).getD ""⟩)
    ∧ (∀ key, thresholdFor orig key =
        if count_words ((dictGet orig key).getD "") ≤ 10 then (3 : Rat) / 10
        else (7 : Rat) / 10) := by
  have hiss := simIssuesOf_eq orig cand hkeys
  have hsome : ∀ a issue, simIssueFor orig cand a = some issue →
      issue = ⟨a, simRatioFor orig cand a, thresholdFor orig a,
        (dictGet orig a).getD "", (dictGet cand a).getD ""⟩ ∧
      simRatioFor orig cand a < thresholdFor orig a := by
    intro a issue hfa
    rw [simIssueFor_spec] at hfa
    by_cases hlt : simRatioFor orig cand a < thresholdFor orig a
    · rw [if_pos hlt] at hfa
      exact ⟨(Option.some.injEq _ _ ▸ hfa.symm :), hlt⟩
    · rw [if_neg hlt] at hfa
      exact absurd hfa (by simp)
  have hmem : ∀ key, key ∈ dictKeys orig →
      ((∃ issue ∈ simIssuesOf orig cand, issue.key = key) ↔
        simRatioFor orig cand key < thresholdFor orig key) := by
    intro key hkey
    rw [hiss]
    constructor
    · rintro ⟨issue, hin, hkeyeq⟩
      obtain ⟨a, _, hfa⟩ := List.mem_filterMap.mp hin
      obtain ⟨hrec, hlt⟩ := hsome a issue hfa
      have hak : a = key := by rw [← hkeyeq, hrec]
      rw [← hak]
      exact hlt
    · intro hlt
      refine ⟨⟨key, simRatioFor orig cand key, thresholdFor orig key,
        (dictGet orig key).getD "", (dictGet cand key).getD ""⟩, ?_, rfl⟩
      refine List.mem_filterMap.mpr ⟨key, hkey, ?_⟩
      rw [simIssueFor_spec, if_pos hlt]
  refine ⟨?_, ?_, ?_, ?_⟩
  · unfold validateOptimizationResult
    simp only [hkeys, Bool.not_true, Bool.false_eq_true, ite_false, if_false]
    rw [simIssuesOf_eq orig cand hkeys]
    cases h : ((dictKeys orig).filterMap (simIssueFor orig cand)).isEmpty with
    | true =>
      simp only [ite_true, if_pos rfl]
      simp [List.isEmpty_iff.mp h]
    | false =>
      simp only [Bool.false_eq_true, ite_false, if_false]
      simp only [false_iff]
      intro hcon
      rw [hcon] at h
      simp at h
  · intro key hkey
    rw [← not_lt, ← hmem key hkey]
  · intro issue hin
    rw [hiss] at hin
    obtain ⟨a, _, hfa⟩ := List.mem_filterMap.mp hin
    obtain ⟨hrec, _⟩ := hsome a issue hfa
    rw [hrec]
  · intro key
    rfl

/-- Witness for C6 at a concrete input: a single-position batch with a small
typo fix passes (short-text threshold 0.3, similarity well above it). -/
theorem validator_similarity_rule_witness :
    (validateOptimizationResult [("1", "Hello wrld")] [("1", "Hello world")]).1 = true ↔
      simIssuesOf [("1", "Hello wrld")] [("1", "Hello world")] = [] :=
  (validator_similarity_rule [("1", "Hello wrld")] [("1", "Hello world")] (by decide)).1

theorem dictGet_cons_of_eq (p : String × String) (d : Batch) (k : String)
    (h : p.1 = k) : dictGet (p :: d) k = some p.2 := by
  unfold dictGet
  rw [List.find?_cons_of_pos _ (by simp [h])]
  rfl

theorem dictGet_cons_of_ne (p : String × String) (d : Batch) (k : String)
    (h : p.1 ≠ k) : dictGet (p :: d) k = dictGet d k := by
  unfold dictGet
  rw [List.find?_cons_of_neg _ (by simp [h])]

theorem dictGet_eq_none_of_not_mem (d : Batch) (k : String) (h : k ∉ dictKeys d) :
    dictGet d k = none := by
  induction d with
  | nil => rfl
  | cons p d ih =>
    simp only [dictKeys, List.map_cons, List.mem_cons, not_or] at h
    rw [dictGet_cons_of_ne p d k (fun hc => h.1 hc.symm)]
    exact ih (by simpa [dictKeys] using h.2)

theorem dictGet_isSome_of_mem (d : Batch) (k : String) (h : k ∈ dictKeys d) :
    (dictGet d k).isSome = true := by
  induction d with
  | nil => simp [dictKeys] at h
  | cons p d ih =>
    by_cases hp : p.1 = k
    · rw [dictGet_cons_of_eq p d k hp]
      rfl
    · rw [dictGet_cons_of_ne p d k hp]
      simp only [dictKeys, List.map_cons, List.mem_cons] at h
      rcases h with rfl | h
      · exact absurd rfl hp
      · exact ih h

theorem dict_any_iff_mem (d : Batch) (k : String) :
    (d.any (fun p => p.1 == k)) = true ↔ k ∈ dictKeys d := by
  rw [List.any_eq_true]
  constructor
  · rintro ⟨p, hp, hk⟩
    exact List.mem_map.mpr ⟨p, hp, by simpa [beq_iff_eq] using hk⟩
  · intro h
    obtain ⟨p, hp, hk⟩ := List.mem_map.mp h
    exact ⟨p, hp, by simp [hk]⟩

theorem dictKeys_dictSet_of_mem (d : Batch) (k v : String) (h : k ∈ dictKeys d) :
    dictKeys (dictSet d k v) = dictKeys d := by
  unfold dictSet
  rw [if_pos ((dict_any_iff_mem d k).mpr h)]
  unfold dictKeys
  rw [List.map_map]
  refine List.map_congr_left ?_
  intro p _
  by_cases hp : p.1 = k
  · simp [hp]
  · simp [hp]

theorem dictKeys_dictSet_of_not_mem (d : Batch) (k v : String) (h : k ∉ dictKeys d) :
    dictKeys (dictSet d k v) = dictKeys d ++ [k] := by
  unfold dictSet
  rw [if_neg (fun hc => h ((dict_any_iff_mem d k).mp hc))]
  simp [dictKeys]

theorem dictGet_map_set (d : Batch) (k v : String) (h : k ∈ dictKeys d) :
    dictGet (d.map (fun p => if p.1 == k then (k, v) else p)) k = some v := by
  induction d with
  | nil => simp [dictKeys] at h
  | cons q d ih =>
    by_cases hq : q.1 = k
    · have hbeq : (q.1 == k) = true := by simpa [beq_iff_eq] using hq
      simp only [List.map_cons, hbeq, if_pos rfl]
      exact dictGet_cons_of_eq (k, v) _ k rfl
    · have hbeq : (q.1 == k) = false := by simpa [beq_iff_eq] using hq
      simp only [List.map_cons, hbeq, Bool.false_eq_true, if_false]
      rw [dictGet_cons_of_ne q _ k hq]
      refine ih ?_
      simp only [dictKeys, List.map_cons, List.mem_cons] at h
      rcases h with rfl | h
      · exact absurd rfl hq
      · exact h

theorem dictGet_map_set_ne (d : Batch) (k v q : String) (h : q ≠ k) :
    dictGet (d.map (fun p => if p.1 == k then (k, v) else p)) q = dictGet d q := by
  induction d with
  | nil => rfl
  | cons p d ih =>
    by_cases hp : p.1 = k
    · have hbeq : (p.1 == k) = true := by simpa [beq_iff_eq] using hp
      simp only [List.map_cons, hbeq, if_pos rfl, if_true]
      rw [dictGet_cons_of_ne (k, v) _ q (fun hc => h hc.symm),
        dictGet_cons_of_ne p d q (by rw [hp]; exact fun hc => h hc.symm)]
      exact ih
    · have hbeq : (p.1 == k) = false := by simpa [beq_iff_eq] using hp
      simp only [List.map_cons, hbeq, Bool.false_eq_true, if_false]
      by_cases hpq : p.1 = q
      · rw [dictGet_cons_of_eq p _ q hpq, dictGet_cons_of_eq p d q hpq]
      · rw [dictGet_cons_of_ne p _ q hpq, dictGet_cons_of_ne p d q hpq]
        exact ih

theorem dictGet_dictSet_self (d : Batch) (k v : String) :
    dictGet (dictSet d k v) k = some v := by
  unfold dictSet
  by_cases h : d.any (fun p => p.1 == k)
  · rw [if_pos h]
    exact dictGet_map_set d k v ((dict_any_iff_mem d k).mp h)
  · rw [if_neg h]
    unfold dictGet
    rw [List.find?_append, List.find?_eq_none.mpr (fun p hp hk =>
      h (List.any_eq_true.mpr ⟨p, hp, hk⟩)), Option.none_or,
      List.find?_cons_of_pos _ (by simp)]
    rfl

theorem dictGet_dictSet_of_ne (d : Batch) (k v q : String) (h : q ≠ k) :
    dictGet (dictSet d k v) q = dictGet d q := by
  unfold dictSet
  by_cases hany : d.any (fun p => p.1 == k)
  · rw [if_pos hany]
    exact dictGet_map_set_ne d k v q h
  · rw [if_neg hany]
    unfold dictGet
    rw [List.find?_append]
    have hone : List.find? (fun p => p.1 == q) [(k, v)] = none := by
      rw [List.find?_eq_none]
      intro p hp
      simp only [List.mem_singleton] at hp
      subst hp
      simp [beq_iff_eq]
      exact fun hc => h hc.symm
    rw [hone]
    simp

theorem dictKeys_dictUpdate_disjoint (e : Batch) (d : Batch)
    (hdis : ∀ k ∈ dictKeys e, k ∉ dictKeys d) (hnodup : (dictKeys e).Nodup) :
    dictKeys (dictUpdate d e) = dictKeys d ++ dictKeys e := by
  induction e generalizing d with
  | nil => simp [dictUpdate, dictKeys]
  | cons p e ih =>
    have hcons : p.1 ∉ dictKeys e ∧ (dictKeys e).Nodup := List.nodup_cons.mp hnodup
    have hstep : dictKeys (dictSet d p.1 p.2) = dictKeys d ++ [p.1] :=
      dictKeys_dictSet_of_not_mem d p.1 p.2 (hdis p.1 (List.mem_cons_self p.1 _))
    have hdis2 : ∀ k ∈ dictKeys e, k ∉ dictKeys (dictSet d p.1 p.2) := by
      intro k hke
      rw [hstep]
      simp only [List.mem_append, List.mem_singleton, not_or]
      have hmemc : k ∈ dictKeys (p :: e) := List.mem_cons_of_mem p.1 hke
      refine ⟨hdis k hmemc, ?_⟩
      intro hc
      subst hc
      exact hcons.1 hke
    calc dictKeys (dictUpdate d (p :: e))
        = dictKeys (dictUpdate (dictSet d p.1 p.2) e) := rfl
      _ = dictKeys (dictSet d p.1 p.2) ++ dictKeys e := ih _ hdis2 hcons.2
      _ = (dictKeys d ++ [p.1]) ++ dictKeys e := by rw [hstep]
      _ = dictKeys d ++ dictKeys (p :: e) := by simp [dictKeys]

theorem dictGet_dictUpdate_of_not_mem (e : Batch) (d : Batch) (k : String)
    (h : k ∉ dictKeys e) : dictGet (dictUpdate d e) k = dictGet d k := by
  induction e generalizing d with
  | nil => rfl
  | cons p e ih =>
    simp only [dictKeys, List.map_cons, List.mem_cons, not_or] at h
    simp only [dictUpdate, List.foldl_cons] at ih ⊢
    rw [ih (dictSet d p.1 p.2) (by simpa [dictKeys] using h.2)]
    exact dictGet_dictSet_of_ne d p.1 p.2 k h.1

theorem dictGet_dictUpdate_of_mem (e : Batch) (d : Batch) (k : String)
    (hk : k ∈ dictKeys e) (hnodup : (dictKeys e).Nodup) :
    dictGet (dictUpdate d e) k = dictGet e k := by
  induction e generalizing d with
  | nil => simp [dictKeys] at hk
  | cons p e ih =>
    simp only [dictUpdate, List.foldl_cons] at ih ⊢
    by_cases hp : p.1 = k
    · have hke : k ∉ dictKeys e := by
        subst hp
        exact (List.nodup_cons.mp (by simpa [dictKeys] using hnodup)).1
      have h1 : dictGet (dictUpdate (dictSet d p.1 p.2) e) k =
          dictGet (dictSet d p.1 p.2) k :=
        dictGet_dictUpdate_of_not_mem e (dictSet d p.1 p.2) k hke
      have h2 : dictGet (dictSet d p.1 p.2) k = some p.2 := by
        subst hp
        exact dictGet_dictSet_self d p.1 p.2
      rw [dictGet_cons_of_eq p e k hp]
      exact h1.trans h2
    · have hke : k ∈ dictKeys e := by
        simp only [dictKeys, List.map_cons, List.mem_cons] at hk
        rcases hk with rfl | hk
        · exact absurd rfl hp
        · exact hk
      rw [dictGet_cons_of_ne p e k hp]
      exact ih (dictSet d p.1 p.2) hke
        (by simpa [dictKeys] using (List.nodup_cons.mp (by simpa [dictKeys] using hnodup)).2)

theorem mergeFold_keys (rs : List Batch) (acc : Batch)
    (h : (dictKeys acc ++ (rs.map dictKeys).flatten).Nodup) :
    dictKeys (rs.foldl dictUpdate acc) = dictKeys acc ++ (rs.map dictKeys).flatten := by
  induction rs generalizing acc with
  | nil => simp
  | cons e rs ih =>
    simp only [List.foldl_cons, List.map_cons, List.flatten_cons]
    have hassoc : (dictKeys acc ++ (dictKeys e ++ ((rs.map dictKeys).flatten))).Nodup := h
    have hupd : dictKeys (dictUpdate acc e) = dictKeys acc ++ dictKeys e := by
      refine dictKeys_dictUpdate_disjoint e acc ?_ ?_
      · intro k hke hka
        have := (List.nodup_append.mp hassoc).2.2
        exact this hka (by simp [hke])
      · exact (List.nodup_append.mp (List.nodup_append.mp
          (by rwa [← List.append_assoc] at hassoc)).1).2.1
    rw [ih (dictUpdate acc e) (by rw [hupd, List.append_assoc]; exact hassoc), hupd,
      List.append_assoc]

theorem mergeFold_get_of_not_mem (rs : List Batch) (acc : Batch) (k : String)
    (h : ∀ e ∈ rs, k ∉ dictKeys e) :
    dictGet (rs.foldl dictUpdate acc) k = dictGet acc k := by
  induction rs generalizing acc with
  | nil => rfl
  | cons e rs ih =>
    simp only [List.foldl_cons]
    rw [ih (dictUpdate acc e) (fun r hr => h r (by simp [hr]))]
    exact dictGet_dictUpdate_of_not_mem e acc k (h e (by simp))

theorem mergeFold_get (rs : List Batch) (acc : Batch) (e : Batch) (he : e ∈ rs)
    (k : String) (hk : k ∈ dictKeys e)
    (h : (dictKeys acc ++ (rs.map dictKeys).flatten).Nodup) :
    dictGet (rs.foldl dictUpdate acc) k = dictGet e k := by
  induction rs generalizing acc with
  | nil => simp at he
  | cons e0 rs ih =>
    simp only [List.foldl_cons]
    have hassoc : (dictKeys acc ++ (dictKeys e0 ++ ((rs.map dictKeys).flatten))).Nodup := h
    have hnodupe0 : (dictKeys e0).Nodup :=
      (List.nodup_append.mp (List.nodup_append.mp
        (by rwa [← List.append_assoc] at hassoc)).1).2.1
    rcases List.mem_cons.mp he with rfl | he
    · have hnotin : ∀ r ∈ rs, k ∉ dictKeys r := by
        intro r hr hkr
        have hnod2 : ((dictKeys e ++ (rs.map dictKeys).flatten)).Nodup :=
          (List.nodup_append.mp hassoc).2.1
        exact (List.nodup_append.mp hnod2).2.2 hk
          (List.mem_flatten.mpr ⟨dictKeys r, List.mem_map.mpr ⟨r, hr, rfl⟩, hkr⟩)
      rw [mergeFold_get_of_not_mem rs (dictUpdate acc e) k hnotin]
      exact dictGet_dictUpdate_of_mem e acc k hk hnodupe0
    · refine ih (dictUpdate acc e0) he ?_
      rw [dictKeys_dictUpdate_disjoint e0 acc ?_ hnodupe0, List.append_assoc]
      · exact hassoc
      · intro q hqe hqa
        exact (List.nodup_append.mp hassoc).2.2 hqa (by simp [hqe])

/-- C2 counterexample: with a one-position transcript dict `{"1": "A"}` in a
single batch, three attempts each parsing as `{"1": "A", "2": "X"}` (failing
key validation every time) exhaust the agent loop; its best-effort repair
returns the candidate unchanged (the aligned lists have mismatched lengths),
so the merged mapping's key set is `{"1", "2"}` — NOT the set of original
positions `{"1"}`: the merged key set can gain positions that were never in
the transcript. -/
theorem orchestrator_merge_counterexample :
    dictKeys (parallelOptimize (splitChunks 1 [("1", "A")])
      [[.content (some [("1", "A"), ("2", "X")]),
        .content (some [("1", "A"), ("2", "X")]),
        .content (some [("1", "A"), ("2", "X")])]]) = ["1", "2"]
    ∧ ("2" : String) ∉ dictKeys [("1", "A")] := by
  decide

/-- C2 amended: for a transcript dict with distinct positions split into
batches (`B ≥ 1`), and per-batch processing outcomes in which every batch's
result keeps its batch's key list — which always holds for a failing batch
(the original chunk is merged) but can be violated by the exhaustion-path
best-effort repair — the merged mapping's key list equals the full original
position list, each exactly once; the rebuilt segment list always has exactly
as many segments as the original (the Transcript constructor then filters
blank texts); each batch's positions carry that batch's result texts; and a
batch whose agent loop raised contributes its untouched original texts. -/
theorem orchestrator_merge_under_key_preservation (dict : Batch) (B : Nat)
    (hB : 1 ≤ B) (hnodup : (dictKeys dict).Nodup) (stepss : List (List LLMStep))
    (hlen : (splitChunks B dict).length ≤ stepss.length)
    (hkeys : ∀ p ∈ (splitChunks B dict).zip stepss,
      dictKeys (optimizeChunk p.1 p.2) = dictKeys p.1) :
    dictKeys (parallelOptimize (splitChunks B dict) stepss) = dictKeys dict
    ∧ (∀ segs : List ASRDataSeg,
        (createSegments segs (parallelOptimize (splitChunks B dict) stepss)).length
          = segs.length)
    ∧ (∀ p ∈ (splitChunks B dict).zip stepss, ∀ k, k ∈ dictKeys p.1 →
        dictGet (parallelOptimize (splitChunks B dict) stepss) k =
          dictGet (optimizeChunk p.1 p.2) k)
    ∧ (∀ chunk steps e, agentLoop chunk steps = Except.error e →
        optimizeChunk chunk steps = chunk) := by
  have hfst : ((splitChunks B dict).zip stepss).map Prod.fst = splitChunks B dict :=
    List.map_fst_zip _ _ hlen
  have hpar : parallelOptimize (splitChunks B dict) stepss =
      (((splitChunks B dict).zip stepss).map
        (fun p => optimizeChunk p.1 p.2)).foldl dictUpdate [] := by
    unfold parallelOptimize
    rw [List.foldl_map]
  have hrsk : ((((splitChunks B dict).zip stepss).map
      (fun p => optimizeChunk p.1 p.2)).map dictKeys).flatten = dictKeys dict := by
    rw [List.map_map]
    have hcong : ((splitChunks B dict).zip stepss).map (dictKeys ∘ fun p =>
        optimizeChunk p.1 p.2) = ((splitChunks B dict).zip stepss).map
        (fun p => dictKeys p.1) := by
      refine List.map_congr_left ?_
      intro p hp
      exact hkeys p hp
    rw [hcong, show ((fun p => dictKeys p.1) :
        Batch × List LLMStep → List String) = dictKeys ∘ Prod.fst from rfl,
      ← List.map_map, hfst, dictKeys_flatten, splitChunks_join B dict hB]
  have hnodup2 : ((dictKeys ([] : Batch)) ++
      (((((splitChunks B dict).zip stepss).map
        (fun p => optimizeChunk p.1 p.2)).map dictKeys).flatten)).Nodup := by
    rw [hrsk]
    simpa [dictKeys] using hnodup
  refine ⟨?_, ?_, ?_, ?_⟩
  · rw [hpar, mergeFold_keys _ _ hnodup2, hrsk]
    rfl
  · intro segs
    unfold createSegments
    simp
  · intro p hp k hk
    rw [hpar]
    refine mergeFold_get _ _ (optimizeChunk p.1 p.2) ?_ k ?_ hnodup2
    · exact List.mem_map.mpr ⟨p, hp, rfl⟩
    · rw [hkeys p hp]
      exact hk
  · intro chunk steps e herr
    unfold optimizeChunk
    rw [herr]

/-- Witness for C2 amended at a concrete input: two single-position batches,
the first raising (its steps exhausted, modelling the exception), the second
echoing its chunk; the merged keys are the original positions. -/
theorem orchestrator_merge_under_key_preservation_witness :
    dictKeys (parallelOptimize (splitChunks 1 [("1", "A"), ("2", "B")])
      [[.raised], [echoStep [("2", "B")]]]) = dictKeys [("1", "A"), ("2", "B")] :=
  (orchestrator_merge_under_key_preservation [("1", "A"), ("2", "B")] 1 (by decide)
    (by decide) [[.raised], [echoStep [("2", "B")]]] (by decide)
    (by decide)).1

/-! ## C3: SRT round trip -/

set_option maxRecDepth 10000

theorem padTwo_parse : ∀ n : Nat, n < 100 →
    parseTwoDigits ((padZero 2 (Int.ofNat n)).data) = some (n, []) := by
  decide

theorem padThree_parse : ∀ n : Nat, n < 1000 →
    parseThreeDigits ((padZero 3 (Int.ofNat n)).data) = some (n, []) := by
  decide

theorem parseTwoDigits_append (xs rest : List Char) (v : Nat)
    (h : parseTwoDigits xs = some (v, [])) :
    parseTwoDigits (xs ++ rest) = some (v, rest) := by
  match xs with
  | [] => simp [parseTwoDigits] at h
  | [a] => simp [parseTwoDigits] at h
  | a :: b :: t =>
    simp only [parseTwoDigits] at h
    split at h
    · rename_i hd
      simp only [Option.some.injEq, Prod.mk.injEq] at h
      obtain ⟨hv, ht⟩ := h
      subst ht
      simp only [List.cons_append, List.nil_append, parseTwoDigits]
      rw [if_pos hd, hv]
    · exact absurd h (by simp)

theorem parseThreeDigits_append (xs rest : List Char) (v : Nat)
    (h : parseThreeDigits xs = some (v, [])) :
    parseThreeDigits (xs ++ rest) = some (v, rest) := by
  match xs with
  | [] => simp [parseThreeDigits] at h
  | [a] => simp [parseThreeDigits] at h
  | [a, b] => simp [parseThreeDigits] at h
  | a :: b :: c :: t =>
    simp only [parseThreeDigits] at h
    split at h
    · rename_i hd
      simp only [Option.some.injEq, Prod.mk.injEq] at h
      obtain ⟨hv, ht⟩ := h
      subst ht
      simp only [List.cons_append, List.nil_append, parseThreeDigits]
      rw [if_pos hd, hv]
    · exact absurd h (by simp)

theorem parseTwoDigits_shape (xs : List Char) (v : Nat) (rest : List Char)
    (h : parseTwoDigits xs = some (v, rest)) :
    ∃ a b, xs = a :: b :: rest ∧ a.isDigit = true ∧ b.isDigit = true := by
  match xs with
  | [] => simp [parseTwoDigits] at h
  | [a] => simp [parseTwoDigits] at h
  | a :: b :: t =>
    simp only [parseTwoDigits] at h
    split at h
    · rename_i hd
      simp only [Option.some.injEq, Prod.mk.injEq] at h
      obtain ⟨hab, hd2⟩ := Bool.and_eq_true_iff.mp hd
      exact ⟨a, b, by rw [h.2], hab, hd2⟩
    · exact absurd h (by simp)

theorem msToSrtTime_decomp (t : Int) (h0 : 0 ≤ t) (h1 : t < 360000000) :
    ∃ hN mN sN msN : Nat, hN < 100 ∧ mN < 60 ∧ sN < 60 ∧ msN < 1000 ∧
      ((hN * 3600000 + mN * 60000 + sN * 1000 + msN : Nat) : Int) = t ∧
      (msToSrtTime t).data =
        (padZero 2 (Int.ofNat hN)).data ++
        ':' :: ((padZero 2 (Int.ofNat mN)).data ++
        ':' :: ((padZero 2 (Int.ofNat sN)).data ++
        ',' :: (padZero 3 (Int.ofNat msN)).data)) := by
  obtain ⟨n, rfl⟩ := Int.eq_ofNat_of_zero_le h0
  have hn : n < 360000000 := by exact_mod_cast h1
  have harith : n / 1000 / 60 / 60 * 3600000 + n / 1000 / 60 % 60 * 60000 +
      n / 1000 % 60 * 1000 + n % 1000 = n := by omega
  refine ⟨n / 1000 / 60 / 60, n / 1000 / 60 % 60, n / 1000 % 60, n % 1000,
    by omega, by omega, by omega, by omega, ?_, ?_⟩
  · exact_mod_cast harith
  · unfold msToSrtTime
    simp only [show ((1000 : Int)) = Int.ofNat 1000 from rfl,
      show ((60 : Int)) = Int.ofNat 60 from rfl, ← Int.ofNat_eq_natCast,
      Int.ofNat_ediv, Int.ofNat_emod, String.data_append, List.append_assoc,
      List.cons_append, List.nil_append, List.singleton_append]
    rfl

theorem parseTwoDigits_pair (a b : Char) (v : Nat)
    (h : parseTwoDigits [a, b] = some (v, [])) :
    a.isDigit = true ∧ b.isDigit = true ∧ 10 * digitVal a + digitVal b = v := by
  simp only [parseTwoDigits] at h
  split at h
  · rename_i hd
    obtain ⟨ha, hb⟩ := Bool.and_eq_true_iff.mp hd
    simp only [Option.some.injEq, Prod.mk.injEq] at h
    exact ⟨ha, hb, h.1⟩
  · exact absurd h (by simp)

theorem parseThreeDigits_triple (a b c : Char) (v : Nat)
    (h : parseThreeDigits [a, b, c] = some (v, [])) :
    a.isDigit = true ∧ b.isDigit = true ∧ c.isDigit = true ∧
      100 * digitVal a + 10 * digitVal b + digitVal c = v := by
  simp only [parseThreeDigits] at h
  split at h
  · rename_i hd
    have hd2 := hd
    rw [Bool.and_assoc] at hd2
    obtain ⟨ha, hbc⟩ := Bool.and_eq_true_iff.mp hd2
    obtain ⟨hb, hc⟩ := Bool.and_eq_true_iff.mp hbc
    simp only [Option.some.injEq, Prod.mk.injEq] at h
    exact ⟨ha, hb, hc, h.1⟩
  · exact absurd h (by simp)

theorem padTwo_chars (n : Nat) (hn : n < 100) :
    ∃ a b, (padZero 2 (Int.ofNat n)).data = [a, b] ∧ a.isDigit = true ∧
      b.isDigit = true ∧ 10 * digitVal a + digitVal b = n := by
  obtain ⟨a, b, hab, ha, hb⟩ := parseTwoDigits_shape _ _ _ (padTwo_parse n hn)
  refine ⟨a, b, hab, ha, hb, ?_⟩
  have := padTwo_parse n hn
  rw [hab] at this
  exact (parseTwoDigits_pair a b n this).2.2

theorem padThree_chars (n : Nat) (hn : n < 1000) :
    ∃ a b c, (padZero 3 (Int.ofNat n)).data = [a, b, c] ∧ a.isDigit = true ∧
      b.isDigit = true ∧ c.isDigit = true ∧
      100 * digitVal a + 10 * digitVal b + digitVal c = n := by
  have hp := padThree_parse n hn
  match hdt : (padZero 3 (Int.ofNat n)).data with
  | [] => rw [hdt] at hp; simp [parseThreeDigits] at hp
  | [a] => rw [hdt] at hp; simp [parseThreeDigits] at hp
  | [a, b] => rw [hdt] at hp; simp [parseThreeDigits] at hp
  | a :: b :: c :: t =>
    rw [hdt] at hp
    have hshape : t = [] := by
      simp only [parseThreeDigits] at hp
      split at hp
      · simp only [Option.some.injEq, Prod.mk.injEq] at hp
        exact hp.2
      · exact absurd hp (by simp)
    subst hshape
    obtain ⟨ha, hb, hc, hv⟩ := parseThreeDigits_triple a b c n hp
    exact ⟨a, b, c, rfl, ha, hb, hc, hv⟩

theorem digit_not_sep (c : Char) (h : c.isDigit = true) :
    (decide (c = '.') || decide (c = ',')) = false := by
  cases hc1 : decide (c = '.') with
  | true =>
    have := of_decide_eq_true hc1
    subst this
    exact absurd h (by decide)
  | false =>
    cases hc2 : decide (c = ',') with
    | true =>
      have := of_decide_eq_true hc2
      subst this
      exact absurd h (by decide)
    | false => rfl

theorem parseSrtHalf_format {α : Type} (t : Int) (h0 : 0 ≤ t) (h1 : t < 360000000)
    (rest : List Char) (k : Int → List Char → Option α) (w : α)
    (hk : k t rest = some w) :
    parseSrtHalf ((msToSrtTime t).data ++ rest) k = some w := by
  obtain ⟨hN, mN, sN, msN, hhlt, hmlt, hslt, hmslt, hval, hdata⟩ :=
    msToSrtTime_decomp t h0 h1
  obtain ⟨a1, a2, hA, ha1, ha2, hva⟩ := padTwo_chars hN hhlt
  obtain ⟨b1, b2, hB, hb1, hb2, hvb⟩ := padTwo_chars mN (by omega)
  obtain ⟨c1, c2, hC, hc1, hc2, hvc⟩ := padTwo_chars sN (by omega)
  obtain ⟨d1, d2, d3, hD, hd1, hd2, hd3, hvd⟩ := padThree_chars msN hmslt
  rw [hdata, hA, hB, hC, hD]
  simp only [List.cons_append, List.nil_append, List.append_assoc]
  simp only [parseSrtHalf, parseTwoDigits, parseOneOrTwoDigits, parseThreeDigits,
    ha1, ha2, hb1, hb2, hc1, hc2, hd1, hd2, hd3, digit_not_sep c2 hc2,
    Bool.and_self, Bool.and_true, Bool.true_and, ite_true, ite_false, if_true,
    Option.some_bind, Option.bind_some, Option.bind_eq_bind]
  simp only [hva, hvb, hvc, hvd]
  rw [show Int.ofNat (hN * 3600000 + mN * 60000 + sN * 1000 + msN) =
    ((hN * 3600000 + mN * 60000 + sN * 1000 + msN : Nat) : Int) from rfl, hval]
  simp [hk]

theorem parseSrtTimeLine_format (st en : Int)
    (hs0 : 0 ≤ st) (hs1 : st < 360000000) (he0 : 0 ≤ en) (he1 : en < 360000000) :
    parseSrtTimeLine (msToSrtTime st ++ " --> " ++ msToSrtTime en).data =
      some (st, en) := by
  have harrow : (" --> " : String).data = ' ' :: '-' :: '-' :: '>' :: [' '] := rfl
  rw [String.data_append, String.data_append, harrow]
  unfold parseSrtTimeLine
  rw [List.append_assoc]
  refine parseSrtHalf_format st hs0 hs1 _ _ (st, en) ?_
  simp only [List.cons_append, List.nil_append]
  simp only [show pyIsSpace ' ' = true from rfl, Bool.and_self, if_true, ite_true]
  have h2 := parseSrtHalf_format (α := Int × Int) en he0 he1 []
    (fun endTime _ => some (st, endTime)) (st, en) rfl
  rw [List.append_nil] at h2
  exact h2

theorem digit_toNat_bounds (c : Char) (h : c.isDigit = true) :
    48 ≤ c.toNat ∧ c.toNat ≤ 57 := by
  simp [Char.isDigit, Char.le_def, UInt32.le_def, BitVec.le_def] at h
  exact h

theorem digit_not_linebreak (c : Char) (h : c.isDigit = true) :
    pyIsLineBreak c = false := by
  have hv := digit_toNat_bounds c h
  unfold pyIsLineBreak
  simp only [Bool.or_eq_false_iff, decide_eq_false_iff_not]
  refine ⟨⟨⟨⟨⟨⟨⟨⟨⟨?_, ?_⟩, ?_⟩, ?_⟩, ?_⟩, ?_⟩, ?_⟩, ?_⟩, ?_⟩, ?_⟩
  all_goals intro hc
  all_goals first
    | (subst hc; exact absurd hv (by decide))
    | (rw [show c.toNat = c.val.toNat from rfl, hc] at hv; exact absurd hv (by decide))

theorem digit_not_space (c : Char) (h : c.isDigit = true) :
    pyIsSpace c = false := by
  have hv := digit_toNat_bounds c h
  unfold pyIsSpace
  simp only [Bool.or_eq_false_iff, decide_eq_false_iff_not]
  refine ⟨⟨⟨⟨⟨⟨⟨⟨⟨⟨⟨?_, ?_⟩, ?_⟩, ?_⟩, ?_⟩, ?_⟩, ?_⟩, ?_⟩, ?_⟩, ?_⟩, ?_⟩, ?_⟩
  all_goals intro hc
  all_goals subst hc
  all_goals exact absurd hv (by decide)

theorem to_srt_ts_chars (seg : ASRDataSeg)
    (hs0 : 0 ≤ seg.start_time) (hs1 : seg.start_time < 360000000)
    (he0 : 0 ≤ seg.end_time) (he1 : seg.end_time < 360000000) :
    (∀ c ∈ (seg.to_srt_ts).data, pyIsLineBreak c = false) ∧
    ∃ c0 rest0, (seg.to_srt_ts).data = c0 :: rest0 ∧ pyIsSpace c0 = false := by
  obtain ⟨hN, mN, sN, msN, hhlt, hmlt, hslt, hmslt, _, hdata1⟩ :=
    msToSrtTime_decomp seg.start_time hs0 hs1
  obtain ⟨hN2, mN2, sN2, msN2, hhlt2, hmlt2, hslt2, hmslt2, _, hdata2⟩ :=
    msToSrtTime_decomp seg.end_time he0 he1
  obtain ⟨a1, a2, hA, ha1, ha2, _⟩ := padTwo_chars hN hhlt
  obtain ⟨b1, b2, hB, hb1, hb2, _⟩ := padTwo_chars mN (by omega)
  obtain ⟨c1, c2, hC, hc1, hc2, _⟩ := padTwo_chars sN (by omega)
  obtain ⟨d1, d2, d3, hD, hd1, hd2, hd3, _⟩ := padThree_chars msN hmslt
  obtain ⟨e1, e2, hE, he1d, he2d, _⟩ := padTwo_chars hN2 hhlt2
  obtain ⟨f1, f2, hF, hf1, hf2, _⟩ := padTwo_chars mN2 (by omega)
  obtain ⟨g1, g2, hG, hg1, hg2, _⟩ := padTwo_chars sN2 (by omega)
  obtain ⟨i1, i2, i3, hI, hi1, hi2, hi3, _⟩ := padThree_chars msN2 hmslt2
  have hts : (seg.to_srt_ts).data =
      (msToSrtTime seg.start_time).data ++ (' ' :: '-' :: '-' :: '>' :: [' ']) ++
      (msToSrtTime seg.end_time).data := by
    unfold ASRDataSeg.to_srt_ts
    rw [String.data_append, String.data_append]
  rw [hts, hdata1, hdata2, hA, hB, hC, hD, hE, hF, hG, hI]
  constructor
  · intro c hc
    simp only [List.cons_append, List.nil_append, List.append_assoc, List.mem_cons,
      List.mem_append, List.mem_singleton, List.not_mem_nil, or_false] at hc
    have hsolve : ∀ x : Char, x.isDigit = true → c = x → pyIsLineBreak c = false :=
      fun x hx he => he ▸ digit_not_linebreak x hx
    rcases hc with h | hc
    · exact hsolve a1 ha1 h
    rcases hc with h | hc
    · exact hsolve a2 ha2 h
    rcases hc with h | hc
    · subst h; decide
    rcases hc with h | hc
    · exact hsolve b1 hb1 h
    rcases hc with h | hc
    · exact hsolve b2 hb2 h
    rcases hc with h | hc
    · subst h; decide
    rcases hc with h | hc
    · exact hsolve c1 hc1 h
    rcases hc with h | hc
    · exact hsolve c2 hc2 h
    rcases hc with h | hc
    · subst h; decide
    rcases hc with h | hc
    · exact hsolve d1 hd1 h
    rcases hc with h | hc
    · exact hsolve d2 hd2 h
    rcases hc with h | hc
    · exact hsolve d3 hd3 h
    rcases hc with h | hc
    · subst h; decide
    rcases hc with h | hc
    · subst h; decide
    rcases hc with h | hc
    · subst h; decide
    rcases hc with h | hc
    · subst h; decide
    rcases hc with h | hc
    · subst h; decide
    rcases hc with h | hc
    · exact hsolve e1 he1d h
    rcases hc with h | hc
    · exact hsolve e2 he2d h
    rcases hc with h | hc
    · subst h; decide
    rcases hc with h | hc
    · exact hsolve f1 hf1 h
    rcases hc with h | hc
    · exact hsolve f2 hf2 h
    rcases hc with h | hc
    · subst h; decide
    rcases hc with h | hc
    · exact hsolve g1 hg1 h
    rcases hc with h | hc
    · exact hsolve g2 hg2 h
    rcases hc with h | hc
    · subst h; decide
    rcases hc with h | hc
    · exact hsolve i1 hi1 h
    rcases hc with h | hc
    · exact hsolve i2 hi2 h
    exact hsolve i3 hi3 hc
  · simp only [List.cons_append, List.nil_append, List.append_assoc]
    exact ⟨a1, _, rfl, digit_not_space a1 ha1⟩

theorem digitChar_isDigit : ∀ m : Nat, m < 10 → (Nat.digitChar m).isDigit = true := by
  decide

theorem toDigitsCore_digits (fuel : Nat) :
    ∀ (n : Nat) (acc : List Char), (∀ c ∈ acc, c.isDigit = true) →
    ∀ c ∈ Nat.toDigitsCore 10 fuel n acc, c.isDigit = true := by
  induction fuel with
  | zero =>
    intro n acc hacc c hc
    simp only [Nat.toDigitsCore] at hc
    exact hacc c hc
  | succ fuel ih =>
    intro n acc hacc c hc
    have hd : (Nat.digitChar (n % 10)).isDigit = true :=
      digitChar_isDigit (n % 10) (Nat.mod_lt n (by norm_num))
    have hcons : ∀ x ∈ Nat.digitChar (n % 10) :: acc, x.isDigit = true := by
      intro x hx
      rcases List.mem_cons.mp hx with rfl | hx
      · exact hd
      · exact hacc x hx
    simp only [Nat.toDigitsCore] at hc
    split at hc
    · exact hcons c hc
    · exact ih (n / 10) (Nat.digitChar (n % 10) :: acc) hcons c hc

theorem toDigitsCore_ne_nil (fuel : Nat) :
    ∀ (n : Nat) (acc : List Char), acc ≠ [] → Nat.toDigitsCore 10 fuel n acc ≠ [] := by
  induction fuel with
  | zero =>
    intro n acc hacc
    simpa [Nat.toDigitsCore] using hacc
  | succ fuel ih =>
    intro n acc hacc
    simp only [Nat.toDigitsCore]
    split
    · simp
    · exact ih (n / 10) _ (by simp)

theorem natToString_shape (n : Nat) :
    (toString n).data ≠ [] ∧ ∀ c ∈ (toString n).data, c.isDigit = true := by
  have hdata : (toString n).data = Nat.toDigits 10 n := rfl
  rw [hdata]
  unfold Nat.toDigits
  constructor
  · simp only [Nat.toDigitsCore]
    split
    · simp
    · exact toDigitsCore_ne_nil n (n / 10) _ (by simp)
  · exact toDigitsCore_digits (n + 1) n [] (by simp)

theorem pySplitlinesGo_cons (c : Char) (rest acc : List Char)
    (h : pyIsLineBreak c = false) :
    pySplitlinesGo (c :: rest) acc = pySplitlinesGo rest (c :: acc) := by
  have hcr : (c = '\r' && rest.head? == some '\n') = false := by
    have : c ≠ '\r' := by
      intro hc
      subst hc
      simp [pyIsLineBreak] at h
    simp [this]
  rw [pySplitlinesGo.eq_def]
  simp only [hcr, Bool.false_eq_true, if_false, ite_false, h]

theorem pySplitlinesGo_newline (rest acc : List Char) (h : rest ≠ []) :
    pySplitlinesGo ('\n' :: rest) acc = acc.reverse :: pySplitlinesGo rest [] := by
  rw [pySplitlinesGo.eq_def]
  simp [h, pyIsLineBreak]

theorem pySplitlinesGo_run (xs : List Char)
    (hxs : ∀ c ∈ xs, pyIsLineBreak c = false) :
    ∀ rest acc, pySplitlinesGo (xs ++ rest) acc = pySplitlinesGo rest (xs.reverse ++ acc) := by
  induction xs with
  | nil => intro rest acc; simp
  | cons c xs ih =>
    intro rest acc
    rw [List.cons_append, pySplitlinesGo_cons c _ acc (hxs c (by simp))]
    rw [ih (fun d hd => hxs d (by simp [hd])) rest (c :: acc)]
    simp

theorem pySplitlines_block (xs ys zs : List Char)
    (hxs : ∀ c ∈ xs, pyIsLineBreak c = false)
    (hys : ∀ c ∈ ys, pyIsLineBreak c = false)
    (hzs : ∀ c ∈ zs, pyIsLineBreak c = false) (hzs0 : zs ≠ []) :
    pySplitlines (xs ++ '\n' :: (ys ++ '\n' :: zs)) = [xs, ys, zs] := by
  have hgo : pySplitlinesGo (xs ++ '\n' :: (ys ++ '\n' :: zs)) [] = [xs, ys, zs] := by
    rw [pySplitlinesGo_run xs hxs, pySplitlinesGo_newline _ _ (by simp),
      pySplitlinesGo_run ys hys, pySplitlinesGo_newline _ _ hzs0]
    have h1 := pySplitlinesGo_run zs hzs ([] : List Char) ([] : List Char)
    simp only [List.append_nil] at h1
    rw [h1, pySplitlinesGo.eq_def]
    simp
  have hne : pySplitlines (xs ++ '\n' :: (ys ++ '\n' :: zs)) =
      pySplitlinesGo (xs ++ '\n' :: (ys ++ '\n' :: zs)) [] := by
    unfold pySplitlines
    cases hx : xs with
    | nil => rfl
    | cons a as => rfl
  rw [hne]; exact hgo

theorem takeWhile_append_of_exists_not (p : Char → Bool) (xs ys : List Char)
    (h : ∃ c ∈ xs, p c = false) :
    (xs ++ ys).takeWhile p = xs.takeWhile p := by
  induction xs with
  | nil => obtain ⟨c, hc, _⟩ := h; exact absurd hc (by simp)
  | cons a xs ih =>
    by_cases ha : p a = true
    · simp only [List.cons_append, List.takeWhile_cons, ha, if_true, ite_true]
      obtain ⟨c, hc, hcp⟩ := h
      rcases List.mem_cons.mp hc with h1 | h1
      · subst h1; rw [ha] at hcp; cases hcp
      · rw [ih ⟨c, h1, hcp⟩]
    · have ha' : p a = false := by
        cases hpa : p a with
        | true => exact absurd hpa ha
        | false => rfl
      simp [List.takeWhile_cons, ha']

theorem takeWhile_sub (p : Char → Bool) (xs : List Char) (c : Char)
    (h : c ∈ xs.takeWhile p) : c ∈ xs := by
  exact List.Sublist.mem h (List.takeWhile_sublist p)

theorem lastIdxOf_eq_none_of_not_mem (c : Char) (xs : List Char) (h : c ∉ xs) :
    lastIdxOf c xs = none := by
  unfold lastIdxOf
  have : xs.reverse.findIdx? (fun d => d == c) = none := by
    rw [List.findIdx?_eq_none_iff]
    intro x hx
    simp only [beq_eq_false_iff_ne, ne_eq]
    intro hxc
    subst hxc
    exact h (List.mem_reverse.mp hx)
  rw [this]

theorem splitOnBlankLinesGo_run (xs : List Char) (hxs : '\n' ∉ xs) :
    ∀ fuel extra rest acc, fuel = xs.length + extra →
      splitOnBlankLinesGo fuel (xs ++ rest) acc =
        splitOnBlankLinesGo extra rest (xs.reverse ++ acc) := by
  induction xs with
  | nil => intro fuel extra rest acc h; simp at h; subst h; simp
  | cons c xs ih =>
    intro fuel extra rest acc h
    match fuel, h with
    | 0, h => rw [List.length_cons] at h; omega
    | f + 1, h =>
      have hf : f = xs.length + extra := by simp at h; omega
      have hc : c ≠ '\n' := fun hc => hxs (hc ▸ List.mem_cons_self c xs)
      rw [List.cons_append, splitOnBlankLinesGo.eq_def]
      simp only [if_neg hc]
      rw [ih (fun hm => hxs (List.mem_cons_of_mem c hm)) f extra rest (c :: acc) hf]
      simp

theorem splitOnBlankLinesGo_newline (fuel : Nat) (rest acc : List Char)
    (h : '\n' ∉ rest.takeWhile pyIsSpace) :
    splitOnBlankLinesGo (fuel + 1) ('\n' :: rest) acc =
      splitOnBlankLinesGo fuel rest ('\n' :: acc) := by
  rw [splitOnBlankLinesGo.eq_def]
  simp only [lastIdxOf_eq_none_of_not_mem '\n' _ h]
  simp

theorem splitOnBlankLinesGo_sep (fuel : Nat) (rest acc : List Char)
    (h : ∀ c, rest.head? = some c → pyIsSpace c = false) :
    splitOnBlankLinesGo (fuel + 1) ('\n' :: '\n' :: rest) acc =
      acc.reverse :: splitOnBlankLinesGo fuel rest [] := by
  have hrun : ('\n' :: rest).takeWhile pyIsSpace = ['\n'] := by
    rw [List.takeWhile_cons, if_pos (by decide)]
    cases rest with
    | nil => rfl
    | cons r rs =>
      rw [List.takeWhile_cons, if_neg (by simp [h r rfl])]
  rw [splitOnBlankLinesGo.eq_def]
  simp only [if_pos rfl, hrun, show lastIdxOf '\n' ['\n'] = some 0 from rfl]
  rfl

theorem splitOnBlankLinesGo_block (num ts text : List Char)
    (hnum : ∀ c ∈ num, c.isDigit = true)
    (hts1 : ∀ c ∈ ts, pyIsLineBreak c = false)
    (hts2 : ∃ c0 r0, ts = c0 :: r0 ∧ pyIsSpace c0 = false)
    (htext1 : ∀ c ∈ text, pyIsLineBreak c = false)
    (htext2 : ∃ c ∈ text, pyIsSpace c = false) :
    ∀ fuel extra rest acc,
      fuel = (num ++ '\n' :: (ts ++ '\n' :: text)).length + extra →
      splitOnBlankLinesGo fuel ((num ++ '\n' :: (ts ++ '\n' :: text)) ++ rest) acc =
        splitOnBlankLinesGo extra rest
          ((num ++ '\n' :: (ts ++ '\n' :: text)).reverse ++ acc) := by
  intro fuel extra rest acc h
  have hnumn : '\n' ∉ num := fun hm => absurd (hnum _ hm) (by decide)
  have htsn : '\n' ∉ ts := fun hm => absurd (hts1 _ hm) (by decide)
  have htextn : '\n' ∉ text := fun hm => absurd (htext1 _ hm) (by decide)
  have hw1 : '\n' ∉ (ts ++ '\n' :: (text ++ rest)).takeWhile pyIsSpace := by
    obtain ⟨c0, r0, hts, hc0⟩ := hts2
    rw [hts, List.cons_append, List.takeWhile_cons, if_neg (by simp [hc0])]
    simp
  have hw2 : '\n' ∉ (text ++ rest).takeWhile pyIsSpace := by
    rw [takeWhile_append_of_exists_not _ _ _
      (by obtain ⟨c, hc, hcw⟩ := htext2; exact ⟨c, hc, hcw⟩)]
    intro hm
    exact absurd (htext1 _ (takeWhile_sub _ _ _ hm)) (by decide)
  have hlen : fuel = num.length +
      ((ts.length + (text.length + extra) + 1) + 1) := by
    simp at h; omega
  simp only [List.append_assoc, List.cons_append]
  rw [splitOnBlankLinesGo_run num hnumn fuel ((ts.length + (text.length + extra) + 1) + 1)
    _ acc hlen]
  rw [splitOnBlankLinesGo_newline _ _ _ hw1]
  rw [splitOnBlankLinesGo_run ts htsn (ts.length + (text.length + extra) + 1)
    ((text.length + extra) + 1) _ _ (by omega)]
  rw [splitOnBlankLinesGo_newline _ _ _ hw2]
  rw [splitOnBlankLinesGo_run text htextn _ extra _ _ rfl]
  simp

/-- The characters of one numbered block of `ASRData.to_srt` without its
trailing newline: index line, timestamp line, text line. -/
def srtBlockCore (n : Nat) (seg : ASRDataSeg) : List Char :=
  (toString (n + 1)).data ++ '\n' :: (seg.to_srt_ts.data ++ '\n' :: seg.text.data)

/-- The characters of `ASRData.to_srt` after `str.strip()`: block cores
joined by blank lines. -/
def srtJoin : List (Nat × ASRDataSeg) → List Char
  | [] => []
  | [p] => srtBlockCore p.1 p.2
  | p :: ps => srtBlockCore p.1 p.2 ++ '\n' :: '\n' :: srtJoin ps

/-- Conditions under which a segment survives the timestamped-block round
trip: non-empty text without line-break characters that does not end in
whitespace, and times representable in the `HH:MM:SS,mmm` field widths. -/
def srtSafe (seg : ASRDataSeg) : Prop :=
  seg.text.data ≠ [] ∧
  (∀ c ∈ seg.text.data, pyIsLineBreak c = false) ∧
  seg.text.data.getLast?.any pyIsSpace = false ∧
  0 ≤ seg.start_time ∧ seg.start_time < 360000000 ∧
  0 ≤ seg.end_time ∧ seg.end_time < 360000000

instance (seg : ASRDataSeg) : Decidable (srtSafe seg) :=
  inferInstanceAs (Decidable (seg.text.data ≠ [] ∧
    (∀ c ∈ seg.text.data, pyIsLineBreak c = false) ∧
    seg.text.data.getLast?.any pyIsSpace = false ∧
    0 ≤ seg.start_time ∧ seg.start_time < 360000000 ∧
    0 ≤ seg.end_time ∧ seg.end_time < 360000000))

theorem srtSafe_last (seg : ASRDataSeg) (h : srtSafe seg) :
    ∀ c, seg.text.data.getLast? = some c → pyIsSpace c = false := by
  obtain ⟨_, _, hlast, _⟩ := h
  intro c hc
  rw [hc] at hlast
  simpa [Option.any] using hlast

theorem srtSafe_text_has_nonspace (seg : ASRDataSeg) (h : srtSafe seg) :
    ∃ c ∈ seg.text.data, pyIsSpace c = false := by
  have hlast := srtSafe_last seg h
  obtain ⟨hne, _, _, _⟩ := h
  rcases List.eq_nil_or_concat seg.text.data with h0 | ⟨l', a, hconcat⟩
  · exact absurd h0 hne
  · rw [List.concat_eq_append] at hconcat
    refine ⟨a, ?_, hlast a ?_⟩
    · rw [hconcat]; simp
    · rw [hconcat]; exact List.getLast?_concat l'

theorem srtBlockCore_head (n : Nat) (seg : ASRDataSeg) :
    ∃ c0 r0, srtBlockCore n seg = c0 :: r0 ∧ c0.isDigit = true := by
  obtain ⟨hne, hdig⟩ := natToString_shape (n + 1)
  unfold srtBlockCore
  cases hd : (toString (n + 1)).data with
  | nil => exact absurd hd hne
  | cons c0 r0 =>
    exact ⟨c0, _, by rw [List.cons_append], hdig c0 (by rw [hd]; simp)⟩

theorem srtJoin_single (p : Nat × ASRDataSeg) : srtJoin [p] = srtBlockCore p.1 p.2 := rfl

theorem srtJoin_cons_cons (p q : Nat × ASRDataSeg) (qs : List (Nat × ASRDataSeg)) :
    srtJoin (p :: q :: qs) = srtBlockCore p.1 p.2 ++ '\n' :: '\n' :: srtJoin (q :: qs) := rfl

theorem srtJoin_head (ps : List (Nat × ASRDataSeg)) (hne : ps ≠ []) :
    ∃ c0 r0, srtJoin ps = c0 :: r0 ∧ c0.isDigit = true := by
  match ps with
  | [] => exact absurd rfl hne
  | [p] =>
    obtain ⟨c0, r0, hc, hd⟩ := srtBlockCore_head p.1 p.2
    exact ⟨c0, r0, by rw [srtJoin_single, hc], hd⟩
  | p :: q :: qs =>
    obtain ⟨c0, r0, hc, hd⟩ := srtBlockCore_head p.1 p.2
    exact ⟨c0, _, by rw [srtJoin_cons_cons, hc, List.cons_append], hd⟩

theorem srtBlockCore_getLast (n : Nat) (seg : ASRDataSeg) (h : seg.text.data ≠ []) :
    (srtBlockCore n seg).getLast? = seg.text.data.getLast? := by
  unfold srtBlockCore
  rcases List.eq_nil_or_concat seg.text.data with h0 | ⟨l', a, hconcat⟩
  · exact absurd h0 h
  · rw [List.concat_eq_append] at hconcat
    rw [hconcat]
    rw [show (toString (n + 1)).data ++ '\n' :: (seg.to_srt_ts.data ++ '\n' :: (l' ++ [a]))
        = ((toString (n + 1)).data ++ '\n' :: (seg.to_srt_ts.data ++ '\n' :: l')) ++ [a]
      from by simp]
    rw [List.getLast?_concat, List.getLast?_concat]

theorem srtJoin_getLast (ps : List (Nat × ASRDataSeg)) (hne : ps ≠ [])
    (hsafe : ∀ p ∈ ps, srtSafe p.2) :
    ∀ c, (srtJoin ps).getLast? = some c → pyIsSpace c = false := by
  induction ps with
  | nil => exact absurd rfl hne
  | cons p ps ih =>
    intro c hc
    cases ps with
    | nil =>
      rw [srtJoin_single] at hc
      have hlast := srtSafe_last p.2 (hsafe p (by simp))
      obtain ⟨htne, _, _, _⟩ := hsafe p (by simp)
      rw [srtBlockCore_getLast p.1 p.2 htne] at hc
      exact hlast c hc
    | cons q qs =>
      rw [srtJoin_cons_cons] at hc
      obtain ⟨c0, r0, hJ, _⟩ := srtJoin_head (q :: qs) (by simp)
      rw [show srtBlockCore p.1 p.2 ++ '\n' :: '\n' :: srtJoin (q :: qs)
          = (srtBlockCore p.1 p.2 ++ ['\n', '\n']) ++ srtJoin (q :: qs) from by simp] at hc
      rw [List.getLast?_append, hJ] at hc
      rw [show (c0 :: r0).getLast? = (srtJoin (q :: qs)).getLast? from by rw [hJ]] at hc
      have hJne : (srtJoin (q :: qs)).getLast?.isSome := by
        rw [hJ]; exact List.getLast?_isSome.mpr (by simp)
      obtain ⟨c1, hc1⟩ := Option.isSome_iff_exists.mp hJne
      rw [hc1, Option.or_some] at hc
      have hcc : c1 = c := by injection hc
      subst hcc
      exact ih (by simp) (fun r hr => hsafe r (by simp [hr])) c1 hc1

theorem splitOnBlankLinesGo_nil (fuel : Nat) (acc : List Char) :
    splitOnBlankLinesGo fuel [] acc = [acc.reverse] := by
  cases fuel <;> rfl

theorem splitOnBlankLinesGo_core (n : Nat) (seg : ASRDataSeg) (h : srtSafe seg) :
    ∀ fuel extra rest acc, fuel = (srtBlockCore n seg).length + extra →
      splitOnBlankLinesGo fuel (srtBlockCore n seg ++ rest) acc =
        splitOnBlankLinesGo extra rest ((srtBlockCore n seg).reverse ++ acc) := by
  have hnsp := srtSafe_text_has_nonspace seg h
  obtain ⟨htne, htlb, hlast, hs0, hs1, he0, he1⟩ := h
  obtain ⟨hts_lb, c0, r0, htsd, hc0⟩ := to_srt_ts_chars seg hs0 hs1 he0 he1
  exact splitOnBlankLinesGo_block (toString (n + 1)).data seg.to_srt_ts.data seg.text.data
    (natToString_shape (n + 1)).2 hts_lb ⟨c0, r0, htsd, hc0⟩ htlb hnsp

theorem splitOnBlankLinesGo_srtJoin (ps : List (Nat × ASRDataSeg)) :
    ∀ extra, (∀ p ∈ ps, srtSafe p.2) → ps ≠ [] →
      splitOnBlankLinesGo ((srtJoin ps).length + extra) (srtJoin ps) [] =
        ps.map (fun p => srtBlockCore p.1 p.2) := by
  induction ps with
  | nil => intro extra _ hne; exact absurd rfl hne
  | cons p ps ih =>
    intro extra hsafe _
    have hsafep := hsafe p (by simp)
    cases ps with
    | nil =>
      rw [srtJoin_single]
      rw [show srtBlockCore p.1 p.2 = srtBlockCore p.1 p.2 ++ [] from (List.append_nil _).symm]
      rw [splitOnBlankLinesGo_core p.1 p.2 hsafep _ extra [] [] (by simp)]
      rw [splitOnBlankLinesGo_nil]
      simp
    | cons q qs =>
      rw [srtJoin_cons_cons]
      obtain ⟨c0, r0, hJ, hd0⟩ := srtJoin_head (q :: qs) (by simp)
      have hhead : ∀ c, (srtJoin (q :: qs)).head? = some c → pyIsSpace c = false := by
        intro c hc
        rw [hJ] at hc
        simp only [List.head?_cons, Option.some_inj] at hc
        subst hc
        exact digit_not_space c0 hd0
      rw [splitOnBlankLinesGo_core p.1 p.2 hsafep _
        (((srtJoin (q :: qs)).length + (extra + 1)) + 1) ('\n' :: '\n' :: srtJoin (q :: qs))
        [] (by simp; omega)]
      rw [splitOnBlankLinesGo_sep ((srtJoin (q :: qs)).length + (extra + 1)) _ _ hhead]
      rw [ih (extra + 1) (fun r hr => hsafe r (by simp [hr])) (by simp)]
      simp

theorem pyStripChars_wrap (l : List Char)
    (hhead : ∃ c0 r0, l = c0 :: r0 ∧ pyIsSpace c0 = false)
    (hlast : ∀ c, l.getLast? = some c → pyIsSpace c = false) :
    pyStripChars (l ++ ['\n']) = l := by
  obtain ⟨c0, r0, hl, hc0⟩ := hhead
  have hdrop : (l ++ ['\n']).dropWhile pyIsSpace = l ++ ['\n'] := by
    rw [hl, List.cons_append, List.dropWhile_cons, if_neg (by simp [hc0])]
  unfold pyStripChars
  rw [hdrop]
  rcases List.eq_nil_or_concat l with h0 | ⟨l', a, hconcat⟩
  · rw [h0] at hl; cases hl
  · rw [List.concat_eq_append] at hconcat
    have ha : pyIsSpace a = false :=
      hlast a (by rw [hconcat]; exact List.getLast?_concat l')
    rw [hconcat]
    rw [show (l' ++ [a]) ++ ['\n'] = l' ++ [a] ++ ['\n'] from rfl]
    rw [show (l' ++ [a] ++ ['\n']).reverse = '\n' :: a :: l'.reverse from by simp]
    rw [List.dropWhile_cons, if_pos (by decide), List.dropWhile_cons, if_neg (by simp [ha])]
    simp

theorem intercalate_go_data (s : String) (xs : List String) :
    ∀ acc, (String.intercalate.go acc s xs).data =
      acc.data ++ (xs.map (fun a => s.data ++ a.data)).flatten := by
  induction xs with
  | nil => intro acc; simp [String.intercalate.go]
  | cons a as ih =>
    intro acc
    rw [String.intercalate.go, ih]
    simp [String.data_append]

theorem intercalate_data (s : String) (x : String) (xs : List String) :
    (String.intercalate s (x :: xs)).data =
      x.data ++ (xs.map (fun a => s.data ++ a.data)).flatten := by
  rw [show String.intercalate s (x :: xs) = String.intercalate.go x s xs from rfl,
    intercalate_go_data]

theorem to_srt_blocks_data (ps : List (Nat × ASRDataSeg)) :
    ps ≠ [] →
    (String.intercalate "\n" (ps.map (fun p =>
        toString (p.1 + 1) ++ "\n" ++ p.2.to_srt_ts ++ "\n" ++ p.2.text ++ "\n"))).data
      = srtJoin ps ++ ['\n'] := by
  induction ps with
  | nil => intro h; exact absurd rfl h
  | cons p ps ih =>
    intro _
    have hbp : (toString (p.1 + 1) ++ "\n" ++ p.2.to_srt_ts ++ "\n" ++ p.2.text ++ "\n").data
        = srtBlockCore p.1 p.2 ++ ['\n'] := by
      simp [srtBlockCore, String.data_append, ASRDataSeg.to_srt_ts]
    cases ps with
    | nil =>
      rw [List.map_cons, List.map_nil, intercalate_data, List.map_nil, List.flatten_nil,
        List.append_nil, hbp, srtJoin_single]
    | cons q qs =>
      have hih := ih (by simp)
      rw [List.map_cons, intercalate_data] at hih ⊢
      simp only [List.map_cons, List.flatten_cons]
      rw [hbp, srtJoin_cons_cons]
      simp only [List.append_assoc, List.cons_append, List.nil_append] at hih ⊢
      rw [hih]

theorem string_mk_data (s : String) : String.mk s.data = s := by
  cases s
  rfl

theorem parseSrtBlock_core (n : Nat) (seg : ASRDataSeg) (h : srtSafe seg) :
    parseSrtBlock (srtBlockCore n seg) =
      some { text := seg.text, start_time := seg.start_time, end_time := seg.end_time } := by
  obtain ⟨htne, htlb, _, hs0, hs1, he0, he1⟩ := h
  have hlines : pySplitlines (srtBlockCore n seg) =
      [(toString (n + 1)).data, seg.to_srt_ts.data, seg.text.data] := by
    exact pySplitlines_block _ _ _
      (fun c hc => digit_not_linebreak c ((natToString_shape (n + 1)).2 c hc))
      (to_srt_ts_chars seg hs0 hs1 he0 he1).1 htlb htne
  have hts : parseSrtTimeLine seg.to_srt_ts.data = some (seg.start_time, seg.end_time) :=
    parseSrtTimeLine_format seg.start_time seg.end_time hs0 hs1 he0 he1
  unfold parseSrtBlock
  rw [hlines]
  simp only [List.length_cons, List.length_nil]
  rw [if_neg (by omega)]
  rw [hts]
  rw [List.map_cons, List.map_nil, string_mk_data]
  rfl

theorem dropWhile_ne_nil_of_exists (p : Char → Bool) (l : List Char)
    (h : ∃ c ∈ l, p c = false) :
    l.dropWhile p ≠ [] ∧ ∃ c ∈ l.dropWhile p, p c = false := by
  induction l with
  | nil => obtain ⟨c, hc, _⟩ := h; simp at hc
  | cons a l ih =>
    by_cases ha : p a = true
    · rw [List.dropWhile_cons, if_pos ha]
      refine ih ?_
      obtain ⟨c, hc, hcp⟩ := h
      rcases List.mem_cons.mp hc with h1 | h1
      · subst h1; rw [ha] at hcp; cases hcp
      · exact ⟨c, h1, hcp⟩
    · have ha' : p a = false := by
        cases hpa : p a with
        | true => exact absurd hpa ha
        | false => rfl
      rw [List.dropWhile_cons, if_neg (by simp [ha'])]
      exact ⟨by simp, a, by simp, ha'⟩

theorem pyStripChars_ne_nil (l : List Char) (h : ∃ c ∈ l, pyIsSpace c = false) :
    pyStripChars l ≠ [] := by
  unfold pyStripChars
  obtain ⟨h1ne, c, hc, hcp⟩ := dropWhile_ne_nil_of_exists pyIsSpace l h
  have h2 := dropWhile_ne_nil_of_exists pyIsSpace (l.dropWhile pyIsSpace).reverse
    ⟨c, List.mem_reverse.mpr hc, hcp⟩
  intro hcontra
  exact h2.1 (by simpa using hcontra)

theorem filterMap_eq_map_of_some {α β : Type} (f : α → Option β) (g : α → β) :
    ∀ l : List α, (∀ a ∈ l, f a = some (g a)) → l.filterMap f = l.map g := by
  intro l
  induction l with
  | nil => intro _; rfl
  | cons a l ih =>
    intro h
    rw [List.filterMap_cons, h a (by simp), List.map_cons, ih (fun b hb => h b (by simp [hb]))]

/-- **C3** (corrected).  Serialising a transcript with `ASRData.to_srt` and
parsing it back with `ASRData.from_srt` reproduces every segment's
`(text, start_ms, end_ms)` in order, provided the segments are sorted by
start time and each text is non-empty, contains no line-break characters,
does not end in whitespace, and both times fit the `HH:MM:SS,mmm` field
widths.  As stated in the specification (for all transcripts whose texts
are merely non-empty and non-whitespace) the round trip fails: a text
containing a newline is serialised over several subtitle lines and
re-joined with `" "` by `from_srt` — see
`srt_round_trip_counterexample`. -/
theorem srt_round_trip (a : ASRData)
    (hsorted : a.segments.Pairwise (fun x y => x.start_time ≤ y.start_time))
    (hsafe : ∀ seg ∈ a.segments, srtSafe seg) :
    (ASRData.from_srt a.to_srt).segments.map (fun s => (s.text, s.start_time, s.end_time))
      = a.segments.map (fun s => (s.text, s.start_time, s.end_time)) := by
  obtain ⟨segs⟩ := a
  rcases eq_or_ne segs [] with h0 | hne
  · subst h0; rfl
  · have hpsne : segs.enum ≠ [] := by
      intro h
      have hlen := congrArg List.length h
      rw [List.enum_length] at hlen
      exact hne (List.eq_nil_of_length_eq_zero (by simpa using hlen))
    have hpssafe : ∀ p ∈ segs.enum, srtSafe p.2 := by
      intro p hp
      apply hsafe
      have hm : p.2 ∈ segs.enum.map Prod.snd := List.mem_map_of_mem Prod.snd hp
      rwa [List.enum_map_snd] at hm
    have hdata : (ASRData.to_srt ⟨segs⟩).data = srtJoin segs.enum ++ ['\n'] :=
      to_srt_blocks_data segs.enum hpsne
    have hstrip : (pyStrip (ASRData.to_srt ⟨segs⟩)).data = srtJoin segs.enum := by
      show pyStripChars (ASRData.to_srt ⟨segs⟩).data = srtJoin segs.enum
      rw [hdata]
      apply pyStripChars_wrap
      · obtain ⟨c0, r0, hJ, hd⟩ := srtJoin_head segs.enum hpsne
        exact ⟨c0, r0, hJ, digit_not_space c0 hd⟩
      · exact srtJoin_getLast segs.enum hpsne hpssafe
    have hsplit : splitOnBlankLines (srtJoin segs.enum) =
        segs.enum.map (fun p => srtBlockCore p.1 p.2) := by
      unfold splitOnBlankLines
      have h := splitOnBlankLinesGo_srtJoin segs.enum 0 hpssafe hpsne
      rwa [Nat.add_zero] at h
    have hparse : (segs.enum.map (fun p => srtBlockCore p.1 p.2)).filterMap parseSrtBlock
        = segs.enum.map (fun p =>
            ({ text := p.2.text, start_time := p.2.start_time,
               end_time := p.2.end_time } : ASRDataSeg)) := by
      rw [List.filterMap_map]
      exact filterMap_eq_map_of_some _ _ _
        (fun p hp => parseSrtBlock_core p.1 p.2 (hpssafe p hp))
    have hfilter : (segs.enum.map (fun p =>
          ({ text := p.2.text, start_time := p.2.start_time,
             end_time := p.2.end_time } : ASRDataSeg))).filter
            (fun seg => seg.text != "" && pyStrip seg.text != "")
        = segs.enum.map (fun p =>
            ({ text := p.2.text, start_time := p.2.start_time,
               end_time := p.2.end_time } : ASRDataSeg)) := by
      rw [List.filter_eq_self]
      intro b hb
      obtain ⟨p, hp, hpb⟩ := List.mem_map.mp hb
      subst hpb
      obtain ⟨htne, _, _, _⟩ := hpssafe p hp
      have h1 : p.2.text ≠ "" := fun he => htne (by rw [he])
      have h2 : pyStrip p.2.text ≠ "" := by
        have hnn := pyStripChars_ne_nil p.2.text.data
          (srtSafe_text_has_nonspace p.2 (hpssafe p hp))
        intro he
        apply hnn
        have hd : (pyStrip p.2.text).data = pyStripChars p.2.text.data := rfl
        rw [he] at hd
        exact hd.symm
      simp [bne_iff_ne, h1, h2]
    have hsorted2 : (segs.enum.map (fun p =>
          ({ text := p.2.text, start_time := p.2.start_time,
             end_time := p.2.end_time } : ASRDataSeg))).Pairwise
            (fun x y => x.start_time ≤ y.start_time) := by
      rw [List.pairwise_map]
      have hp0 : (segs.enum.map Prod.snd).Pairwise
          (fun x y => x.start_time ≤ y.start_time) := by
        rw [List.enum_map_snd]
        exact hsorted
      rw [List.pairwise_map] at hp0
      exact hp0
    have hmake : ASRData.make (segs.enum.map (fun p =>
          ({ text := p.2.text, start_time := p.2.start_time,
             end_time := p.2.end_time } : ASRDataSeg)))
        = ⟨segs.enum.map (fun p =>
            ({ text := p.2.text, start_time := p.2.start_time,
               end_time := p.2.end_time } : ASRDataSeg))⟩ := by
      unfold ASRData.make
      rw [hfilter]
      exact congrArg ASRData.mk (List.Sorted.insertionSort_eq hsorted2)
    show (ASRData.from_srt (ASRData.to_srt ⟨segs⟩)).segments.map _ = _
    unfold ASRData.from_srt
    rw [hstrip, hsplit, hparse, hmake]
    show (segs.enum.map _).map _ = segs.map _
    rw [List.map_map]
    conv_rhs => rw [← List.enum_map_snd segs, List.map_map]
    rfl

/-- **C3** counterexample to the claim as specified: the transcript holding
the single segment `("a\nb", 0, 1000)` has non-empty, non-whitespace text,
yet the `to_srt`/`from_srt` round trip returns the text `"a b"` — the
newline inside the text is serialised as a line break of the block and
`from_srt` joins the block's text lines with a space. -/
theorem srt_round_trip_counterexample :
    ∃ a : ASRData,
      (∀ seg ∈ a.segments, seg.text ≠ "" ∧ pyStrip seg.text ≠ "") ∧
      (ASRData.from_srt a.to_srt).segments.map (fun s => (s.text, s.start_time, s.end_time))
        ≠ a.segments.map (fun s => (s.text, s.start_time, s.end_time)) :=
  ⟨⟨[⟨"a\nb", "", 0, 1000⟩]⟩, by decide, by decide⟩

/-- Witness for `srt_round_trip`: a concrete two-segment transcript
satisfying all hypotheses round-trips exactly. -/
theorem srt_round_trip_witness :
    (([⟨"Hello world", "", 0, 1500⟩, ⟨"Bye", "", 1500, 3000⟩] : List ASRDataSeg).Pairwise
        (fun x y => x.start_time ≤ y.start_time)) ∧
      (ASRData.from_srt (ASRData.to_srt
          ⟨[⟨"Hello world", "", 0, 1500⟩, ⟨"Bye", "", 1500, 3000⟩]⟩)).segments.map
          (fun s => (s.text, s.start_time, s.end_time))
        = [("Hello world", (0 : Int), (1500 : Int)), ("Bye", 1500, 3000)] :=
  ⟨by decide, by
    rw [srt_round_trip ⟨[⟨"Hello world", "", 0, 1500⟩, ⟨"Bye", "", 1500, 3000⟩]⟩
      (by decide) (by decide)]
    decide⟩
